import Mathlib

/-!
# Verification of the kapacitor configuration override engine

Shallow embedding of `services/config/configupdate/configupdate.go`
(package `configupdate`): the `ConfigUpdater` façade, the field namers,
the `configWalker` traversal driven by `reflectwalk`, the deep copy
performed by `copystructure`, and the weak numeric coercer
`weakCopyValue` built on Go's `reflect` package.

Modelling conventions:
* Go machine integers are `Int`/`Nat` with explicit two's-complement
  wrapping (`Int.bmod _ (2 ^ w)`); the host word size is 64 bits.
* Go floating point values are modelled as exact rationals `ℚ`;
  rounding performed by the hardware on `float32`/`float64` stores is
  not modelled (none of the proved statements depends on it), while
  float-to-integer conversion is modelled as truncation toward zero
  followed by the wrap, matching the host's in-range behaviour.
* Heap-allocated values (the configuration root and every pointee of a
  section pointer field) live in an explicit heap, so that mutation by
  the walker and the cloning discipline of `copystructure.Copy` are
  observable.
* `reflect.Value.Set` panics when the source's concrete type is not
  assignable to the destination's.  All types occurring in a
  configuration are defined types, for which Go assignability is type
  identity; the model therefore compares `GoType`s for equality.
-/

set_option autoImplicit false

namespace Configupdate

/-- `reflect.Kind` restricted to the kinds the engine can encounter. -/
inductive Kind where
  | Bool | Int | Int8 | Int16 | Int32 | Int64
  | Uint | Uint8 | Uint16 | Uint32 | Uint64 | Uintptr
  | Float32 | Float64 | Ptr | String | Struct | Slice | Map
deriving DecidableEq, Repr

/-- The numeric value of the `reflect.Kind` constant in Go, used by the
ordered comparisons in `isNumericKind`, `isIntKind` and `isUintKind`. -/
def Kind.idx : Kind → Nat
  | .Bool => 1
  | .Int => 2 | .Int8 => 3 | .Int16 => 4 | .Int32 => 5 | .Int64 => 6
  | .Uint => 7 | .Uint8 => 8 | .Uint16 => 9 | .Uint32 => 10 | .Uint64 => 11
  | .Uintptr => 12
  | .Float32 => 13 | .Float64 => 14
  | .Ptr => 22 | .Slice => 23 | .String => 24 | .Struct => 25 | .Map => 21

/-- `isNumericKind`: `k >= reflect.Int && k <= reflect.Float64`
(complex kinds are ignored since they cannot be converted). -/
def isNumericKind (k : Kind) : Bool :=
  Kind.idx .Int ≤ k.idx && k.idx ≤ Kind.idx .Float64

/-- `isIntKind`: `k >= reflect.Int && k <= reflect.Int64`. -/
def isIntKind (k : Kind) : Bool :=
  Kind.idx .Int ≤ k.idx && k.idx ≤ Kind.idx .Int64

/-- `isUintKind`: `k >= reflect.Uint && k <= reflect.Uint64`. -/
def isUintKind (k : Kind) : Bool :=
  Kind.idx .Uint ≤ k.idx && k.idx ≤ Kind.idx .Uint64

/-- `isFloatKind`: `k == reflect.Float32 || k == reflect.Float64`. -/
def isFloatKind (k : Kind) : Bool :=
  k == .Float32 || k == .Float64

/-- Bit width of a signed integer kind (`int` is 64 bits on the host). -/
def Kind.intWidth : Kind → Nat
  | .Int => 64 | .Int8 => 8 | .Int16 => 16 | .Int32 => 32 | .Int64 => 64
  | _ => 0

/-- Bit width of an unsigned integer kind. -/
def Kind.uintWidth : Kind → Nat
  | .Uint => 64 | .Uint8 => 8 | .Uint16 => 16 | .Uint32 => 32 | .Uint64 => 64
  | .Uintptr => 64
  | _ => 0

/-- A Go type as `reflect` sees it: its name and its kind.  All the
types a configuration can mention are defined types, for which Go
assignability coincides with type identity. -/
structure GoType where
  name : String
  kind : Kind
deriving DecidableEq, Repr

/-- A dynamically typed Go value of the shapes the coercer inspects.
Aggregates that the engine never opens (struct, slice, map or pointer
values stored in an option field) are carried as `vOpaque` with an
identity token: the engine only ever copies them whole. -/
inductive GoValue where
  | vBool : GoType → Bool → GoValue
  | vInt : GoType → Int → GoValue
  | vUint : GoType → Nat → GoValue
  | vFloat : GoType → ℚ → GoValue
  | vString : GoType → String → GoValue
  | vOpaque : GoType → Nat → GoValue
deriving DecidableEq, Repr

/-- `reflect.Value.Type`. -/
def GoValue.ty : GoValue → GoType
  | .vBool t _ => t
  | .vInt t _ => t
  | .vUint t _ => t
  | .vFloat t _ => t
  | .vString t _ => t
  | .vOpaque t _ => t

/-- `reflect.Value.Kind`. -/
def GoValue.kind (v : GoValue) : Kind := v.ty.kind

/-- Well-formedness of a modelled value: the payload constructor agrees
with the type's kind and integer payloads are in range of their width
(as they are for every value a Go program can build). -/
def GoValue.wf : GoValue → Bool
  | .vBool t _ => t.kind == .Bool
  | .vInt t v => isIntKind t.kind && Int.bmod v (2 ^ t.kind.intWidth) == v
  | .vUint t n => isUintKind t.kind && n < 2 ^ t.kind.uintWidth
  | .vFloat t _ => isFloatKind t.kind
  | .vString t _ => t.kind == .String
  | .vOpaque t _ => !isNumericKind t.kind && t.kind != .String

/-- `reflect.Value.Int`: the signed payload, sign-extended to 64 bits
(for a well-formed value this is the payload itself). -/
def GoValue.intVal : GoValue → Int
  | .vInt _ v => v
  | _ => 0

/-- `reflect.Value.Uint`: the unsigned payload zero-extended to 64 bits. -/
def GoValue.uintVal : GoValue → Nat
  | .vUint _ n => n
  | _ => 0

/-- `reflect.Value.Float`. -/
def GoValue.floatVal : GoValue → ℚ
  | .vFloat _ q => q
  | _ => 0

/-- `reflect.Value.String`. -/
def GoValue.stringVal : GoValue → String
  | .vString _ s => s
  | _ => ""

/-- Truncation toward zero, Go's float-to-integer conversion for
in-range operands. -/
def truncToZero (q : ℚ) : Int :=
  if 0 ≤ q then ⌊q⌋ else ⌈q⌉

/-- `uint64(x)` for a 64-bit signed `x`: reduce modulo `2 ^ 64`. -/
def wrapUnsigned64 (x : Int) : Nat :=
  (x % (2 ^ 64 : Int)).toNat

/-- Value of a list of decimal digit characters; `none` if the list is
empty or contains a non-digit. -/
def decDigits? (cs : List Char) : Option Nat :=
  if cs.isEmpty then none
  else cs.foldl
    (fun acc c => acc.bind fun n =>
      if c.isDigit then some (10 * n + (c.toNat - 48)) else none)
    (some 0)

/-- Value of a list of decimal digit characters, empty list giving 0. -/
def decDigitsVal (cs : List Char) : Nat :=
  cs.foldl (fun n c => 10 * n + (c.toNat - 48)) 0

/-- Modelled from the spec and Go's documented `strconv.ParseInt(s, 10, 64)`
(the library is outside the repository): optional sign, non-empty
decimal digits, signed 64-bit range check. -/
def goParseInt64 (s : String) : Option Int :=
  let cs := s.toList
  let p : Bool × List Char :=
    match cs with
    | '+' :: rest => (false, rest)
    | '-' :: rest => (true, rest)
    | _ => (false, cs)
  (decDigits? p.2).bind fun n =>
    let v : Int := if p.1 then -(n : Int) else (n : Int)
    if -(2 ^ 63) ≤ v ∧ v < 2 ^ 63 then some v else none

/-- Modelled from the spec and Go's documented `strconv.ParseUint(s, 10, 64)`:
no sign allowed, non-empty decimal digits, unsigned 64-bit range check. -/
def goParseUint64 (s : String) : Option Nat :=
  (decDigits? s.toList).bind fun n =>
    if n < 2 ^ 64 then some n else none

/-- Modelled from the spec and Go's documented `strconv.ParseFloat(s, 64)`,
restricted to plain decimal forms `[+-]digits[.digits]` (exponent, hex
and inf/nan spellings never arise in the scenarios considered). -/
def goParseFloat (s : String) : Option ℚ :=
  let cs := s.toList
  let p : Bool × List Char :=
    match cs with
    | '+' :: rest => (false, rest)
    | '-' :: rest => (true, rest)
    | _ => (false, cs)
  let ip := p.2.takeWhile Char.isDigit
  let rest := p.2.drop ip.length
  let mk : ℚ → Option ℚ := fun q => some (if p.1 then -q else q)
  match rest with
  | [] => if ip.isEmpty then none else mk (decDigitsVal ip : ℚ)
  | '.' :: frac =>
      if frac.all Char.isDigit && !(ip.isEmpty && frac.isEmpty) then
        mk ((decDigitsVal ip : ℚ) + (decDigitsVal frac : ℚ) / (10 ^ frac.length))
      else none
  | _ => none

/-- Outcome of `weakCopyValue`.  `panics` records the run-time panic
raised by `reflect.Value.Set` when the source's concrete type is not
assignable to the destination's. -/
inductive CopyOutcome where
  | ok : GoValue → CopyOutcome
  | errNotSettable : CopyOutcome
  | errWrongType : Kind → Kind → CopyOutcome
  | panics : CopyOutcome
deriving DecidableEq, Repr

/-- `reflect.Value.SetInt`: the 64-bit operand is converted to the
destination's width, wrapping two's-complement style. -/
def GoValue.setInt (dst : GoValue) (x : Int) : GoValue :=
  .vInt dst.ty (Int.bmod x (2 ^ dst.ty.kind.intWidth))

/-- `reflect.Value.SetUint`: the 64-bit operand is reduced to the
destination's width. -/
def GoValue.setUint (dst : GoValue) (n : Nat) : GoValue :=
  .vUint dst.ty (n % 2 ^ dst.ty.kind.uintWidth)

/-- `reflect.Value.SetFloat` (store modelled exactly; `float32`
rounding is not observable in any statement below). -/
def GoValue.setFloat (dst : GoValue) (q : ℚ) : GoValue :=
  .vFloat dst.ty q

/-- `weakCopyValue(src, dst)` from `configupdate.go`: copy the value of
`src` into `dst`, numeric types being copied weakly.  The destination
slot is described by its current value `dst` together with the
`CanSet` flag of the `reflect.Value` wrapping it. -/
def weakCopyValue (canSet : Bool) (src dst : GoValue) : CopyOutcome :=
  if !canSet then .errNotSettable
  else
    let srcK := src.kind
    let dstK := dst.kind
    if srcK = dstK then
      -- Perform normal copy: `dst.Set(src)`, which panics unless the
      -- source's type is assignable (identical, for defined types).
      if src.ty = dst.ty then .ok src else .panics
    else if isNumericKind dstK then
      -- Perform weak numeric copy
      if isIntKind dstK then
        if isIntKind srcK then .ok (dst.setInt src.intVal)
        else if isUintKind srcK then .ok (dst.setInt (Int.bmod (src.uintVal : Int) (2 ^ 64)))
        else if isFloatKind srcK then .ok (dst.setInt (truncToZero src.floatVal))
        else if srcK = .String then
          match goParseInt64 src.stringVal with
          | some i => .ok (dst.setInt i)
          | none => .errWrongType srcK dstK
        else .errWrongType srcK dstK
      else if isUintKind dstK then
        if isIntKind srcK then .ok (dst.setUint (wrapUnsigned64 src.intVal))
        else if isUintKind srcK then .ok (dst.setUint src.uintVal)
        else if isFloatKind srcK then .ok (dst.setUint (wrapUnsigned64 (truncToZero src.floatVal)))
        else if srcK = .String then
          match goParseUint64 src.stringVal with
          | some u => .ok (dst.setUint u)
          | none => .errWrongType srcK dstK
        else .errWrongType srcK dstK
      else if isFloatKind dstK then
        if isIntKind srcK then .ok (dst.setFloat (src.intVal : ℚ))
        else if isUintKind srcK then .ok (dst.setFloat (src.uintVal : ℚ))
        else if isFloatKind srcK then .ok (dst.setFloat src.floatVal)
        else if srcK = .String then
          match goParseFloat src.stringVal with
          | some f => .ok (dst.setFloat f)
          | none => .errWrongType srcK dstK
        else .errWrongType srcK dstK
      else .errWrongType srcK dstK
    else .errWrongType srcK dstK

/-! ## Configuration objects, the heap, and the deep copier -/

/-- `structTagKey = "configupdate"`. -/
def structTagKey : String := "configupdate"

/-- `reflect.StructTag.Get`: look a key up in the field's tag list,
returning `""` when absent. -/
def tagGet (tags : List (String × String)) (key : String) : String :=
  (tags.lookup key).getD ""

/-- `strings.Split(s, ",")`: the comma-separated elements of `s`, the
empty string splitting into `[""]` (Go's `Split` never returns an
empty slice, so `parts[0]` is always defined). -/
def splitComma (s : String) : List String :=
  go s.toList
where
  go : List Char → List String
    | [] => [""]
    | c :: rest =>
      if c = ',' then "" :: go rest
      else
        match go rest with
        | [] => [String.mk [c]]
        | t :: ts => String.mk (c :: t.toList) :: ts

/-- The part of `reflect.StructField` the engine consults: declared
name and struct tag. -/
structure FieldDesc where
  fname : String
  tags : List (String × String)
deriving DecidableEq, Repr

/-- `FieldNameFunc`: returns the name of a field based on its
`reflect.StructField` description. -/
def FieldNameFunc : Type := FieldDesc → String

/-- `RawFieldName`: the Go field name. -/
def RawFieldName (f : FieldDesc) : String := f.fname

/-- `tagFieldName`: the first comma-separated element of the given
struct tag, the declared name when that is empty. -/
def tagFieldName (tag : String) (f : FieldDesc) : String :=
  let parts := splitComma (tagGet f.tags tag)
  let name := if parts.length > 0 then parts.headD "" else ""
  if name = "" then f.fname else name

/-- `TomlFieldName`. -/
def TomlFieldName : FieldNameFunc := tagFieldName "toml"

/-- `JSONFieldName`. -/
def JSONFieldName : FieldNameFunc := tagFieldName "json"

/-- An option field of a section struct: descriptor, the `CanSet` flag
of its slot in the (addressable) clone, and its current value. -/
structure OptField where
  fname : String
  tags : List (String × String)
  canSet : Bool
  value : GoValue
deriving DecidableEq, Repr

/-- Descriptor of an option field. -/
def OptField.desc (f : OptField) : FieldDesc := ⟨f.fname, f.tags⟩

/-- A section aggregate: a struct with its type name and option fields. -/
structure StructVal where
  tyName : String
  fields : List OptField
deriving DecidableEq, Repr

instance : Inhabited StructVal := ⟨⟨"", []⟩⟩

/-- The value stored in a top-level configuration field: a direct
aggregate, a single-level indirection (pointer type name plus heap
address of the pointee), or a plain non-aggregate value. -/
inductive TopVal where
  | direct : StructVal → TopVal
  | indirect : String → Nat → TopVal
  | plain : GoValue → TopVal
deriving DecidableEq, Repr

/-- A top-level field of the configuration struct. -/
structure TopField where
  fname : String
  tags : List (String × String)
  value : TopVal
deriving DecidableEq, Repr

/-- The top-level configuration struct. -/
structure ConfigStruct where
  tyName : String
  fields : List TopField
deriving DecidableEq, Repr

instance : Inhabited ConfigStruct := ⟨⟨"", []⟩⟩

/-- A heap cell: the configuration root allocation or a section
pointee allocation. -/
inductive Cell where
  | top : ConfigStruct → Cell
  | sec : StructVal → Cell
deriving DecidableEq, Repr

/-- The heap: allocations addressed by their index. -/
abbrev Heap : Type := List Cell

/-- Read the configuration struct stored at address `a`. -/
def heapTop (h : Heap) (a : Nat) : ConfigStruct :=
  match List.get? h a with
  | some (.top c) => c
  | _ => default

/-- Read the section aggregate stored at address `a`. -/
def heapSec (h : Heap) (a : Nat) : StructVal :=
  match List.get? h a with
  | some (.sec s) => s
  | _ => default

/-- Overwrite the cell at address `a`. -/
def heapSet (h : Heap) (a : Nat) (c : Cell) : Heap :=
  List.set h a c

/-- `copystructure.Copy` on the top-level fields: every section pointee
is cloned into a fresh cell and the field rewritten to point at it;
other fields are copied by value. -/
def copyTopFields (h : Heap) : List TopField → Heap × List TopField
  | [] => (h, [])
  | f :: rest =>
    match f.value with
    | .indirect pt a =>
        let h1 : Heap := h ++ [Cell.sec (heapSec h a)]
        let res := copyTopFields h1 rest
        (res.1, { f with value := .indirect pt (List.length h) } :: res.2)
    | _ =>
        let res := copyTopFields h rest
        (res.1, f :: res.2)

/-- `copystructure.Copy` of the configuration at `root`: clone every
pointee, then the root struct itself, into fresh cells, returning the
extended heap and the address of the clone. -/
def deepCopy (h : Heap) (root : Nat) : Heap × Nat :=
  let cfg := heapTop h root
  let res := copyTopFields h cfg.fields
  (res.1 ++ [Cell.top { cfg with fields := res.2 }], List.length res.1)

/-! ## The section walker -/

/-- `configWalker`: the state reflectwalk threads through the
traversal.  `sectionIdx` models `sectionValue`, a `reflect.Value`
referring to the slot of the recorded top-level field (`none` while
the zero `reflect.Value` is invalid).  The `fieldNameFunc` member is
threaded as a parameter of the walk functions instead (Lean functions
have no decidable equality). -/
structure ConfigWalker where
  sect : String
  name : String
  set : List (String × GoValue)
  used : List String
  sectionFieldName : String
  sectionIdx : Option Nat
  currentFieldTag : String
deriving DecidableEq, Repr

/-- `newWalker`. -/
def newWalker (sect name : String) (set : List (String × GoValue)) : ConfigWalker :=
  { sect := sect, name := name, set := set, used := [],
    sectionFieldName := "", sectionIdx := none, currentFieldTag := "" }

/-- Mark a key as used (`w.used[name] = true`). -/
def markUsed (n : String) (used : List String) : List String :=
  if used.contains n then used else used ++ [n]

/-- `configWalker.unused`: the keys of the set not marked used, in set
order (Go ranges over the map; the model fixes the insertion order). -/
def unusedKeys (w : ConfigWalker) : List String :=
  (w.set.map Prod.fst).filter (fun n => !w.used.contains n)

/-- Abort status of the traversal: `reflectwalk.Walk` stops at the
first error returned by a callback; a panic propagates out. -/
inductive WalkStatus where
  | ok
  | errAt : String → CopyOutcome → WalkStatus
  | panicked
deriving DecidableEq, Repr

/-- `configWalker.StructField`, option level (`depth == 1`): skip the
field unless the current top-level field carries the target tag,
otherwise look the field's external name up in the set and weakly copy
the supplied value into the slot. -/
def stepOption (namer : FieldNameFunc) (w : ConfigWalker) (f : OptField) :
    OptField × ConfigWalker × WalkStatus :=
  if w.currentFieldTag ≠ w.sect then (f, w, .ok)
  else
    let name := namer f.desc
    match w.set.lookup name with
    | some setValue =>
        match weakCopyValue f.canSet setValue f.value with
        | .ok v => ({ f with value := v }, { w with used := markUsed name w.used }, .ok)
        | .panics => (f, w, .panicked)
        | out => (f, w, .errAt name out)
    | none => (f, w, .ok)

/-- Walk the option fields of one section struct, aborting at the
first error as `reflectwalk` does. -/
def walkOptions (namer : FieldNameFunc) (w : ConfigWalker) :
    List OptField → List OptField × ConfigWalker × WalkStatus
  | [] => ([], w, .ok)
  | f :: rest =>
    let s := stepOption namer w f
    match s.2.2 with
    | .ok =>
        let r := walkOptions namer s.2.1 rest
        (s.1 :: r.1, r.2.1, r.2.2)
    | st => (s.1 :: rest, s.2.1, st)

/-- `configWalker.StructField`, section level (`depth == 0`): read the
first comma-separated element of the `configupdate` tag; if it equals
the target section, record the field (its name and its slot, here the
field's index `i`). -/
def stepTopTag (w : ConfigWalker) (f : TopField) (i : Nat) : ConfigWalker :=
  let parts := splitComma (tagGet f.tags structTagKey)
  if parts.length > 0 then
    let w1 := { w with currentFieldTag := parts.headD "" }
    if w1.sect = w1.currentFieldTag then
      { w1 with sectionFieldName := f.fname, sectionIdx := some i }
    else w1
  else w

/-- Visit one top-level field: the depth-0 callback, then the walk
into the field's value, which visits the option fields of a direct or
pointed-to aggregate at depth 1 (deeper levels are no-ops in the
walker and are not descended into here). -/
def walkTopField (namer : FieldNameFunc) (h : Heap) (w : ConfigWalker)
    (f : TopField) (i : Nat) : Heap × TopField × ConfigWalker × WalkStatus :=
  let w1 := stepTopTag w f i
  match f.value with
  | .direct s =>
      let r := walkOptions namer w1 s.fields
      (h, { f with value := .direct { s with fields := r.1 } }, r.2.1, r.2.2)
  | .indirect _ a =>
      let s := heapSec h a
      let r := walkOptions namer w1 s.fields
      (heapSet h a (.sec { s with fields := r.1 }), f, r.2.1, r.2.2)
  | .plain _ => (h, f, w1, .ok)

/-- Walk the top-level fields in declaration order, `i` the index of
the first field, aborting on the first error. -/
def walkFields (namer : FieldNameFunc) (h : Heap) (w : ConfigWalker) :
    List TopField → Nat → Heap × List TopField × ConfigWalker × WalkStatus
  | [], _ => (h, [], w, .ok)
  | f :: rest, i =>
    let r := walkTopField namer h w f i
    match r.2.2.2 with
    | .ok =>
        let r2 := walkFields namer r.1 r.2.2.1 rest (i + 1)
        (r2.1, r.2.1 :: r2.2.1, r2.2.2.1, r2.2.2.2)
    | st => (r.1, r.2.1 :: rest, r.2.2.1, st)

/-- `reflectwalk.Walk(copy, walker)`: walk the struct at `root`,
mutating option slots in place; the updated top struct is written
back to its cell. -/
def reflectwalkWalk (namer : FieldNameFunc) (h : Heap) (root : Nat)
    (w : ConfigWalker) : Heap × ConfigWalker × WalkStatus :=
  let cfg := heapTop h root
  let r := walkFields namer h w cfg.fields 0
  (heapSet r.1 root (.top { cfg with fields := r.2.1 }), r.2.2.1, r.2.2.2)

/-- The `interface{}` value `Update` returns on success: boxing a
direct aggregate copies it, boxing a pointer keeps the address. -/
inductive IfaceValue where
  | structVal : StructVal → IfaceValue
  | ptrVal : String → Nat → IfaceValue
  | plainVal : GoValue → IfaceValue
deriving DecidableEq, Repr

/-- `configWalker.sectionObject`: `nil` while `sectionValue` is the
invalid zero `reflect.Value`, otherwise the current value of the
recorded slot, read after the walk. -/
def sectionObject (h : Heap) (root : Nat) (w : ConfigWalker) : Option IfaceValue :=
  match w.sectionIdx with
  | some i =>
      match (List.get? (heapTop h root).fields i).map TopField.value with
      | some (.direct s) => some (.structVal s)
      | some (.indirect p a) => some (.ptrVal p a)
      | some (.plain g) => some (.plainVal g)
      | none => none
  | none => none

/-- Errors `ConfigUpdater.Update` can return.  `walkErr` wraps a
coercion failure with the option name and the section
("failed to apply changes … cannot set option …"). -/
inductive UpdateErr where
  | emptySection : UpdateErr
  | walkErr : String → String → CopyOutcome → UpdateErr
  | unknownOptions : List String → String → UpdateErr
  | unknownSection : String → UpdateErr
deriving DecidableEq, Repr

/-- Result of `ConfigUpdater.Update`: the returned section value, an
error, or a propagated panic. -/
inductive UpdateResult where
  | ok : IfaceValue → UpdateResult
  | err : UpdateErr → UpdateResult
  | panicked : UpdateResult
deriving DecidableEq, Repr

/-- `ConfigUpdater.Update(section, name, set)` over the engine state
`(h, root)`: reject the empty section, clone the original, walk the
clone applying the set, then fail on unused keys, then on a missing
section, else return the section object.  The final heap is returned
so the effect on the engine's retained original is observable
(`copystructure.Copy` cannot fail on the value shapes modelled here,
so the clone-failure branch of the source does not arise). -/
def Update (h : Heap) (root : Nat) (namer : FieldNameFunc)
    (sect name : String) (set : List (String × GoValue)) :
    UpdateResult × Heap :=
  if sect = "" then (.err .emptySection, h)
  else
    let c := deepCopy h root
    let w := newWalker sect name set
    let r := reflectwalkWalk namer c.1 c.2 w
    match r.2.2 with
    | .panicked => (.panicked, r.1)
    | .errAt optName out => (.err (.walkErr sect optName out), r.1)
    | .ok =>
        let unused := unusedKeys r.2.1
        if unused.length > 0 then (.err (.unknownOptions unused sect), r.1)
        else
          match sectionObject r.1 c.2 r.2.1 with
          | none => (.err (.unknownSection sect), r.1)
          | some v => (.ok v, r.1)

/-! ## The weak numeric coercer: totality and integer wrap semantics -/

/-- The 64-bit image of a numeric source, as `weakCopyValue` computes
it for an integer destination: `src.Int()` sign-extends a signed
source, `int64(src.Uint())` reinterprets an unsigned one, and
`int64(src.Float())` truncates a float toward zero. -/
def toInt64 (src : GoValue) : Int :=
  match src with
  | .vInt _ v => v
  | .vUint _ n => Int.bmod (n : Int) (2 ^ 64)
  | .vFloat _ q => truncToZero q
  | _ => 0

@[simp] theorem GoValue.ty_vBool (t : GoType) (b : Bool) : (GoValue.vBool t b).ty = t := rfl
@[simp] theorem GoValue.ty_vInt (t : GoType) (v : Int) : (GoValue.vInt t v).ty = t := rfl
@[simp] theorem GoValue.ty_vUint (t : GoType) (n : Nat) : (GoValue.vUint t n).ty = t := rfl
@[simp] theorem GoValue.ty_vFloat (t : GoType) (q : ℚ) : (GoValue.vFloat t q).ty = t := rfl
@[simp] theorem GoValue.ty_vString (t : GoType) (s : String) : (GoValue.vString t s).ty = t := rfl
@[simp] theorem GoValue.ty_vOpaque (t : GoType) (p : Nat) : (GoValue.vOpaque t p).ty = t := rfl
@[simp] theorem GoValue.kind_vBool (t : GoType) (b : Bool) : (GoValue.vBool t b).kind = t.kind := rfl
@[simp] theorem GoValue.kind_vInt (t : GoType) (v : Int) : (GoValue.vInt t v).kind = t.kind := rfl
@[simp] theorem GoValue.kind_vUint (t : GoType) (n : Nat) : (GoValue.vUint t n).kind = t.kind := rfl
@[simp] theorem GoValue.kind_vFloat (t : GoType) (q : ℚ) : (GoValue.vFloat t q).kind = t.kind := rfl
@[simp] theorem GoValue.kind_vString (t : GoType) (s : String) : (GoValue.vString t s).kind = t.kind := rfl
@[simp] theorem GoValue.kind_vOpaque (t : GoType) (p : Nat) : (GoValue.vOpaque t p).kind = t.kind := rfl

/-- Signed integer kinds are numeric. -/
theorem isNumericKind_of_int {k : Kind} (h : isIntKind k = true) :
    isNumericKind k = true := by
  cases k <;> simp_all [isIntKind, isNumericKind, Kind.idx]

/-- Signed and unsigned integer kinds are disjoint. -/
theorem not_isIntKind_of_uint {k : Kind} (h : isUintKind k = true) :
    isIntKind k = false := by
  cases k <;> simp_all [isIntKind, isUintKind, Kind.idx]

/-- Float kinds are not signed integer kinds. -/
theorem not_isIntKind_of_float {k : Kind} (h : isFloatKind k = true) :
    isIntKind k = false := by
  cases k <;> simp_all [isIntKind, isFloatKind, Kind.idx]

/-- Float kinds are not unsigned integer kinds. -/
theorem not_isUintKind_of_float {k : Kind} (h : isFloatKind k = true) :
    isUintKind k = false := by
  cases k <;> simp_all [isUintKind, isFloatKind, Kind.idx]

/-- Distinct kind families have distinct kinds. -/
theorem kind_int_ne_uint {k1 k2 : Kind} (h1 : isIntKind k1 = true)
    (h2 : isUintKind k2 = true) : k1 ≠ k2 := by
  cases k1 <;> cases k2 <;> simp_all [isIntKind, isUintKind, Kind.idx]

theorem kind_int_ne_float {k1 k2 : Kind} (h1 : isIntKind k1 = true)
    (h2 : isFloatKind k2 = true) : k1 ≠ k2 := by
  cases k1 <;> cases k2 <;> simp_all [isIntKind, isFloatKind, Kind.idx]

theorem kind_int_ne_string {k : Kind} (h : isIntKind k = true) :
    k ≠ .String := by
  cases k <;> simp_all [isIntKind, Kind.idx]

/-- C6 (amended): for every source value and destination slot such
that, when source and destination have the same kind, the source's
concrete type is the destination's, the weak numeric coercer either
performs the assignment or returns a structured error (the not-settable
error or the type-mismatch error naming both kinds); in particular it
does not panic. -/
theorem weakCopyValue_total (canSet : Bool) (src dst : GoValue)
    (hty : src.kind = dst.kind → src.ty = dst.ty) :
    (∃ v, weakCopyValue canSet src dst = .ok v) ∨
    weakCopyValue canSet src dst = .errNotSettable ∨
    (∃ k1 k2, weakCopyValue canSet src dst = .errWrongType k1 k2) := by
  cases canSet with
  | false => exact Or.inr (Or.inl (by simp [weakCopyValue]))
  | true =>
    by_cases hk : src.kind = dst.kind
    · refine Or.inl ⟨src, ?_⟩
      simp [weakCopyValue, hk, hty hk]
    · rcases hres : weakCopyValue true src dst with v | - | ⟨k1, k2⟩ | -
      · exact Or.inl ⟨v, rfl⟩
      · exact Or.inr (Or.inl rfl)
      · exact Or.inr (Or.inr ⟨k1, k2, rfl⟩)
      · exfalso
        simp only [weakCopyValue] at hres
        repeat' split at hres
        all_goals simp_all

/-- Witness for `weakCopyValue_total`: a string source into an `int8`
destination coerces without a panic. -/
theorem weakCopyValue_total_witness :
    (∃ v, weakCopyValue true (.vString ⟨"string", .String⟩ "42")
        (.vInt ⟨"int8", .Int8⟩ 0) = .ok v) ∨
    weakCopyValue true (.vString ⟨"string", .String⟩ "42")
        (.vInt ⟨"int8", .Int8⟩ 0) = .errNotSettable ∨
    (∃ k1 k2, weakCopyValue true (.vString ⟨"string", .String⟩ "42")
        (.vInt ⟨"int8", .Int8⟩ 0) = .errWrongType k1 k2) :=
  weakCopyValue_total true _ _ (by decide)

/-- Counterexample to C6 as stated: a same-kind source whose concrete
type differs from the destination's makes `dst.Set(src)` panic instead
of producing a structured error (a `string` value assigned to a field
of defined type `Password`). -/
theorem weakCopyValue_panics_cex :
    weakCopyValue true (.vString ⟨"string", .String⟩ "x")
      (.vString ⟨"Password", .String⟩ "") = .panics := by decide

/-- C7 (amended): for every well-formed numeric source and integer
destination of width `w` whose type the source's is assignable to when
the kinds coincide, coercion never fails for being out of range: the
source's 64-bit image (sign-extended for signed sources, reinterpreted
for unsigned ones, truncated toward zero for floats) is reduced modulo
`2 ^ w` in two's complement and stored. -/
theorem weakCopyValue_int_wrap (src dst : GoValue)
    (hwf : src.wf = true) (hnum : isNumericKind src.kind = true)
    (hdst : isIntKind dst.kind = true)
    (hty : src.kind = dst.kind → src.ty = dst.ty) :
    weakCopyValue true src dst =
      .ok (.vInt dst.ty (Int.bmod (toInt64 src) (2 ^ dst.ty.kind.intWidth))) := by
  have hnumDst : isNumericKind dst.ty.kind = true := isNumericKind_of_int hdst
  have hdst2 : isIntKind dst.ty.kind = true := hdst
  match src with
  | .vOpaque t p =>
      exfalso
      simp only [GoValue.kind_vOpaque] at hnum
      simp [GoValue.wf, hnum] at hwf
  | .vBool t b =>
      exfalso
      simp only [GoValue.kind_vBool] at hnum
      simp only [GoValue.wf, beq_iff_eq] at hwf
      rw [hwf] at hnum
      exact absurd hnum (by decide)
  | .vString t s =>
      exfalso
      simp only [GoValue.kind_vString] at hnum
      simp only [GoValue.wf, beq_iff_eq] at hwf
      rw [hwf] at hnum
      exact absurd hnum (by decide)
  | .vInt t v =>
      simp only [GoValue.wf, Bool.and_eq_true, beq_iff_eq] at hwf
      by_cases hk : t.kind = dst.ty.kind
      · have hteq : t = dst.ty := hty (by simpa using hk)
        have hv : Int.bmod v (2 ^ dst.ty.kind.intWidth) = v := by
          rw [← hk]; exact hwf.2
        subst hteq
        simp [weakCopyValue, GoValue.kind, toInt64, hv]
      · have hk' : ¬(t.kind = dst.ty.kind) := hk
        simp [weakCopyValue, GoValue.kind, hk', hnumDst, hdst2, hwf.1,
          toInt64, GoValue.setInt, GoValue.intVal]
  | .vUint t n =>
      simp only [GoValue.wf, Bool.and_eq_true] at hwf
      have hk : ¬(t.kind = dst.ty.kind) := (kind_int_ne_uint hdst2 hwf.1).symm
      simp [weakCopyValue, GoValue.kind, hk, hnumDst, hdst2,
        not_isIntKind_of_uint hwf.1, hwf.1, toInt64, GoValue.setInt, GoValue.uintVal]
  | .vFloat t q =>
      simp only [GoValue.wf] at hwf
      have hk : ¬(t.kind = dst.ty.kind) := (kind_int_ne_float hdst2 hwf).symm
      simp [weakCopyValue, GoValue.kind, hk, hnumDst, hdst2,
        not_isIntKind_of_float hwf, not_isUintKind_of_float hwf, hwf,
        toInt64, GoValue.setInt, GoValue.floatVal]

/-- Witness for `weakCopyValue_int_wrap`: the out-of-range value 300
stored into an `int8` field wraps to 44 without an error. -/
theorem weakCopyValue_int_wrap_witness :
    weakCopyValue true (.vInt ⟨"int", .Int⟩ 300) (.vInt ⟨"int8", .Int8⟩ 0) =
      .ok (.vInt ⟨"int8", .Int8⟩
        (Int.bmod (toInt64 (.vInt ⟨"int", .Int⟩ 300)) (2 ^ 8))) :=
  weakCopyValue_int_wrap _ _ (by decide) (by decide) (by decide) (by decide)

/-- Counterexample to C7 as stated: a numeric source of the same kind
as the integer destination but of a different concrete type is not
wrapped and assigned, the call panics (an `int64` value into a field
of defined type `toml.Duration`). -/
theorem weakCopyValue_int_same_kind_cex :
    weakCopyValue true (.vInt ⟨"int64", .Int64⟩ 5)
        (.vInt ⟨"toml.Duration", .Int64⟩ 0) = .panics ∧
    weakCopyValue true (.vInt ⟨"int64", .Int64⟩ 5)
        (.vInt ⟨"toml.Duration", .Int64⟩ 0) ≠
      .ok (.vInt ⟨"toml.Duration", .Int64⟩ 5) := by
  refine ⟨by decide, by decide⟩

/-! ## Spec-side characterisations of the walk -/

/-- The *section tag* of a top-level field: the first comma-separated
element of its `configupdate` struct tag (the spec's §3 definition). -/
def sectionTagOf (f : TopField) : String :=
  (splitComma (tagGet f.tags structTagKey)).headD ""

/-- The option fields the walker visits below a top-level field,
resolved through a single indirection. -/
def optFieldsOf (h : Heap) (f : TopField) : List OptField :=
  match f.value with
  | .direct s => s.fields
  | .indirect _ a => (heapSec h a).fields
  | .plain _ => []

/-- Index (relative to the head of the list) of the last field whose
section tag is `sect`. -/
def lastMatchIdx (sect : String) : List TopField → Option Nat
  | [] => none
  | f :: rest =>
    match lastMatchIdx sect rest with
    | some j => some (j + 1)
    | none => if sectionTagOf f = sect then some 0 else none

/-- Heap addresses reachable through the indirection fields of a
top-level field list. -/
def topAddrs (fs : List TopField) : List Nat :=
  fs.filterMap (fun f => match f.value with
    | .indirect _ a => some a
    | _ => none)

/-- Well-formedness of the engine's retained original: the root cell
holds the configuration struct and every indirection field points at a
section cell inside the heap. -/
def rootWF (h : Heap) (root : Nat) : Bool :=
  match List.get? h root with
  | some (.top cfg) =>
      cfg.fields.all (fun f => match f.value with
        | .indirect _ a =>
            decide (a < h.length) &&
            (match List.get? h a with | some (.sec _) => true | _ => false)
        | _ => true)
  | _ => false

/-- A deep structural snapshot of the configuration at `root`: the top
struct together with every indirection field's pointee. -/
def snapshot (h : Heap) (root : Nat) : ConfigStruct × List (Option StructVal) :=
  (heapTop h root,
   (heapTop h root).fields.map (fun f => match f.value with
     | .indirect _ a => some (heapSec h a)
     | _ => none))

/-- One option field after the walk, relative to its pre-walk state:
descriptor and settability are untouched; the value is the weak copy
of the supplied value when the field's external name is a key of the
set, the old value otherwise. -/
def optUpdated (namer : FieldNameFunc) (set : List (String × GoValue))
    (g g' : OptField) : Prop :=
  g'.fname = g.fname ∧ g'.tags = g.tags ∧ g'.canSet = g.canSet ∧
  (match set.lookup (namer g.desc) with
   | some sv => weakCopyValue g.canSet sv g.value = .ok g'.value
   | none => g'.value = g.value)

/-- A section aggregate after the walk. -/
def secUpdated (namer : FieldNameFunc) (set : List (String × GoValue))
    (s s' : StructVal) : Prop :=
  s'.tyName = s.tyName ∧ List.Forall₂ (optUpdated namer set) s.fields s'.fields

/-! ## Concrete configurations used by the counterexamples -/

/-- The `string` type. -/
def stringTy : GoType := ⟨"string", .String⟩

/-- The `int64` type. -/
def int64Ty : GoType := ⟨"int64", .Int64⟩

/-- The `int` type. -/
def intTy : GoType := ⟨"int", .Int⟩

/-- `SectionA` with `Option1`/`Option2`, as in the repository's tests. -/
def sectionA : StructVal :=
  ⟨"SectionA",
   [⟨"Option1", [("toml", "toml-option1")], true, .vString stringTy "o1"⟩,
    ⟨"Option2", [("toml", "toml-option2")], true, .vString stringTy ""⟩]⟩

/-- `SectionB` with a single option. -/
def sectionB : StructVal :=
  ⟨"SectionB", [⟨"Option3", [], true, .vString stringTy "o3"⟩]⟩

/-- A configuration with two tagged sections. -/
def testConfig : ConfigStruct :=
  ⟨"TestConfig",
   [⟨"SectionA", [(structTagKey, "section-a")], .direct sectionA⟩,
    ⟨"SectionB", [(structTagKey, "section-b")], .direct sectionB⟩]⟩

/-- Engine state holding `testConfig` at address 0. -/
def testHeap : Heap := [.top testConfig]

/-- `SectionC` held behind a pointer, as in the repository's tests. -/
def sectionC : StructVal := ⟨"SectionC", [⟨"Option4", [], true, .vInt int64Ty 0⟩]⟩

/-- A configuration whose only section is a single-level indirection. -/
def ptrConfig : ConfigStruct :=
  ⟨"TestConfig2", [⟨"SectionC", [(structTagKey, "section-c")], .indirect "*SectionC" 1⟩]⟩

/-- Engine state for `ptrConfig`: root at 0, pointee at 1. -/
def ptrHeap : Heap := [.top ptrConfig, .sec sectionC]

/-- Two distinct top-level fields carrying the same section tag `s`. -/
def dupConfig : ConfigStruct :=
  ⟨"DupConfig",
   [⟨"F1", [(structTagKey, "s")], .direct ⟨"SectionX", [⟨"A", [], true, .vString stringTy "old"⟩]⟩⟩,
    ⟨"F2", [(structTagKey, "s")], .direct ⟨"SectionY", [⟨"B", [], true, .vString stringTy "b0"⟩]⟩⟩]⟩

/-- Engine state holding `dupConfig`. -/
def dupHeap : Heap := [.top dupConfig]

/-- Counterexample to C3 as stated: with a non-empty override set and
a section tag nobody carries, `Update` fails with the unknown-options
error (the unused-keys check precedes the section check), not with the
unknown-section error. -/
theorem update_unknown_section_nonempty_cex :
    (Update testHeap 0 RawFieldName "unknown" "" [("x", .vString stringTy "v")]).1
        = .err (.unknownOptions ["x"] "unknown") ∧
    (Update testHeap 0 RawFieldName "unknown" "" [("x", .vString stringTy "v")]).1
        ≠ .err (.unknownSection "unknown") := by
  refine ⟨by decide, by decide⟩

/-- Counterexample to C5 as stated: with two top-level fields carrying
the target tag, a call whose key resolves only inside the first of
them succeeds, yet the returned section value is the unchanged second
aggregate: no field of it carries the key's name or the supplied
value. -/
theorem update_containment_cex :
    (Update dupHeap 0 RawFieldName "s" "" [("A", .vString stringTy "x")]).1
        = .ok (.structVal ⟨"SectionY", [⟨"B", [], true, .vString stringTy "b0"⟩]⟩) ∧
    (⟨"SectionY", [⟨"B", [], true, .vString stringTy "b0"⟩]⟩ : StructVal).fields.all
        (fun g => RawFieldName g.desc ≠ "A" && g.value ≠ .vString stringTy "x") = true := by
  refine ⟨by decide, by decide⟩

/-- Counterexample to C8 as stated: for the pointer-held section the
successful call returns the indirection itself (the pointer at the
fresh address 2), not the dereferenced aggregate. -/
theorem update_indirection_cex :
    (Update ptrHeap 0 RawFieldName "section-c" "" [("Option4", .vInt intTy 42)]).1
        = .ok (.ptrVal "*SectionC" 2) ∧
    (Update ptrHeap 0 RawFieldName "section-c" "" [("Option4", .vInt intTy 42)]).1
        ≠ .ok (.structVal ⟨"SectionC", [⟨"Option4", [], true, .vInt int64Ty 42⟩]⟩) := by
  refine ⟨by decide, by decide⟩

/-! ## Basic walk lemmas -/

/-- `splitComma` never returns the empty list (Go's `strings.Split`
never returns an empty slice). -/
theorem splitComma_go_ne_nil (cs : List Char) : splitComma.go cs ≠ [] := by
  induction cs with
  | nil => simp [splitComma.go]
  | cons c rest ih =>
    simp only [splitComma.go]
    split
    · simp
    · split
      · simp
      · simp

/-- The option-level callback changes nothing in the walker state but
the set of used keys. -/
theorem stepOption_state (namer : FieldNameFunc) (w : ConfigWalker) (f : OptField) :
    ∃ u, (stepOption namer w f).2.1 = { w with used := u } := by
  unfold stepOption
  split
  · exact ⟨w.used, rfl⟩
  · cases hl : List.lookup (namer f.desc) w.set with
    | none => simp only [hl]; exact ⟨w.used, rfl⟩
    | some sv =>
      simp only [hl]
      cases hc : weakCopyValue f.canSet sv f.value with
      | ok v => simp only [hc]; exact ⟨_, rfl⟩
      | panics => simp only [hc]; exact ⟨w.used, rfl⟩
      | errNotSettable => simp only [hc]; exact ⟨w.used, rfl⟩
      | errWrongType k1 k2 => simp only [hc]; exact ⟨w.used, rfl⟩

/-- `walkOptions` changes nothing in the walker state but the used
keys. -/
theorem walkOptions_state (namer : FieldNameFunc) (fs : List OptField) :
    ∀ w : ConfigWalker, ∃ u, (walkOptions namer w fs).2.1 = { w with used := u } := by
  induction fs with
  | nil => exact fun w => ⟨w.used, rfl⟩
  | cons f rest ih =>
    intro w
    obtain ⟨u1, h1⟩ := stepOption_state namer w f
    simp only [walkOptions]
    split
    · rw [h1]
      obtain ⟨u2, h2⟩ := ih { w with used := u1 }
      rw [h2]
      exact ⟨u2, rfl⟩
    · exact ⟨u1, h1⟩

/-- A field of a section the walker does not care about is skipped:
the option walk is the identity. -/
theorem walkOptions_skip (namer : FieldNameFunc) (fs : List OptField)
    (w : ConfigWalker) (hne : w.currentFieldTag ≠ w.sect) :
    walkOptions namer w fs = (fs, w, .ok) := by
  induction fs with
  | nil => rfl
  | cons f rest ih =>
    have hstep : stepOption namer w f = (f, w, .ok) := by
      unfold stepOption
      rw [if_pos hne]
    simp only [walkOptions, hstep, ih]

/-- The section-level callback in closed form: the current tag becomes
the field's section tag, and the field is recorded as the section slot
exactly when its tag equals the target. -/
theorem stepTopTag_eq (w : ConfigWalker) (f : TopField) (i : Nat) :
    stepTopTag w f i =
      (if w.sect = sectionTagOf f then
        { w with currentFieldTag := sectionTagOf f,
                 sectionFieldName := f.fname, sectionIdx := some i }
      else { w with currentFieldTag := sectionTagOf f }) := by
  unfold stepTopTag sectionTagOf splitComma
  rw [if_pos (by
    have := splitComma_go_ne_nil (tagGet f.tags structTagKey).toList
    cases hgo : splitComma.go (tagGet f.tags structTagKey).toList with
    | nil => exact absurd hgo this
    | cons a as => simp [splitComma, hgo]
      )]

/-- The address written by visiting one top-level field, if any. -/
def fieldAddr? (f : TopField) : Option Nat :=
  match f.value with
  | .indirect _ a => some a
  | _ => none

/-- `walkTopField` preserves the heap's length and touches at most the
field's own indirection cell. -/
theorem walkTopField_heap (namer : FieldNameFunc) (h : Heap) (w : ConfigWalker)
    (f : TopField) (i : Nat) :
    (walkTopField namer h w f i).1.length = h.length ∧
    ∀ j, fieldAddr? f ≠ some j →
      List.get? (walkTopField namer h w f i).1 j = List.get? h j := by
  unfold walkTopField
  cases hv : f.value with
  | direct s => exact ⟨rfl, fun j _ => rfl⟩
  | plain g => exact ⟨rfl, fun j _ => rfl⟩
  | indirect pt a =>
    constructor
    · simp [heapSet]
    · intro j hj
      have hne : a ≠ j := by
        intro heq
        exact hj (by rw [fieldAddr?, hv, heq])
      exact List.get?_set_ne _ _ hne

/-- `walkFields` preserves the heap's length and touches only the
indirection cells of the fields it visits. -/
theorem walkFields_heap (namer : FieldNameFunc) (fs : List TopField) :
    ∀ (h : Heap) (w : ConfigWalker) (i : Nat),
    (walkFields namer h w fs i).1.length = h.length ∧
    ∀ j, j ∉ topAddrs fs →
      List.get? (walkFields namer h w fs i).1 j = List.get? h j := by
  induction fs with
  | nil => exact fun h w i => ⟨rfl, fun j _ => rfl⟩
  | cons f rest ih =>
    intro h w i
    have hmem : ∀ j, j ∉ topAddrs (f :: rest) →
        fieldAddr? f ≠ some j ∧ j ∉ topAddrs rest := by
      intro j hj
      constructor
      · intro hja
        exact hj (by
          simp only [topAddrs, List.filterMap_cons]
          rw [show (match f.value with
              | .indirect _ a => some a
              | _ => none) = some j from hja]
          exact List.mem_cons_self j _)
      · intro hjr
        exact hj (by
          simp only [topAddrs, List.filterMap_cons]
          split
          · exact hjr
          · exact List.mem_cons_of_mem _ hjr)
    obtain ⟨hlen1, hget1⟩ := walkTopField_heap namer h w f i
    simp only [walkFields]
    split
    · obtain ⟨hlen2, hget2⟩ :=
        ih (walkTopField namer h w f i).1 (walkTopField namer h w f i).2.2.1 (i + 1)
      refine ⟨by rw [hlen2, hlen1], fun j hj => ?_⟩
      obtain ⟨hf, hr⟩ := hmem j hj
      rw [hget2 j hr, hget1 j hf]
    · exact ⟨hlen1, fun j hj => hget1 j (hmem j hj).1⟩

/-! ## The instance name is dead state -/

/-- Replace the walker's stored instance name. -/
def ConfigWalker.withName (w : ConfigWalker) (n : String) : ConfigWalker :=
  { w with name := n }

theorem stepOption_withName (namer : FieldNameFunc) (w : ConfigWalker)
    (f : OptField) (n : String) :
    stepOption namer (w.withName n) f =
      ((stepOption namer w f).1,
       ((stepOption namer w f).2.1).withName n,
       (stepOption namer w f).2.2) := by
  by_cases hg : w.currentFieldTag ≠ w.sect
  · simp [stepOption, ConfigWalker.withName, hg]
  · cases hl : List.lookup (namer f.desc) w.set with
    | none => simp [stepOption, ConfigWalker.withName, hg, hl]
    | some sv =>
      cases hc : weakCopyValue f.canSet sv f.value with
      | ok v => simp [stepOption, ConfigWalker.withName, hg, hl, hc]
      | panics => simp [stepOption, ConfigWalker.withName, hg, hl, hc]
      | errNotSettable => simp [stepOption, ConfigWalker.withName, hg, hl, hc]
      | errWrongType k1 k2 => simp [stepOption, ConfigWalker.withName, hg, hl, hc]

theorem walkOptions_withName (namer : FieldNameFunc) (fs : List OptField) :
    ∀ (w : ConfigWalker) (n : String),
    walkOptions namer (w.withName n) fs =
      ((walkOptions namer w fs).1,
       ((walkOptions namer w fs).2.1).withName n,
       (walkOptions namer w fs).2.2) := by
  induction fs with
  | nil => intro w n; rfl
  | cons f rest ih =>
    intro w n
    simp only [walkOptions, stepOption_withName, ih]
    cases (stepOption namer w f).2.2 with
    | ok => simp
    | errAt s c => simp
    | panicked => simp

theorem stepTopTag_withName (w : ConfigWalker) (f : TopField) (i : Nat) (n : String) :
    stepTopTag (w.withName n) f i = (stepTopTag w f i).withName n := by
  rw [stepTopTag_eq, stepTopTag_eq]
  unfold ConfigWalker.withName
  by_cases hs : w.sect = sectionTagOf f
  · rw [if_pos hs, if_pos hs]
  · rw [if_neg hs, if_neg hs]

theorem walkTopField_withName (namer : FieldNameFunc) (h : Heap) (w : ConfigWalker)
    (f : TopField) (i : Nat) (n : String) :
    walkTopField namer h (w.withName n) f i =
      ((walkTopField namer h w f i).1,
       (walkTopField namer h w f i).2.1,
       ((walkTopField namer h w f i).2.2.1).withName n,
       (walkTopField namer h w f i).2.2.2) := by
  cases hv : f.value with
  | direct s => simp [walkTopField, hv, stepTopTag_withName, walkOptions_withName]
  | indirect pt a => simp [walkTopField, hv, stepTopTag_withName, walkOptions_withName]
  | plain g => simp [walkTopField, hv, stepTopTag_withName]

theorem walkFields_withName (namer : FieldNameFunc) (fs : List TopField) :
    ∀ (h : Heap) (w : ConfigWalker) (i : Nat) (n : String),
    walkFields namer h (w.withName n) fs i =
      ((walkFields namer h w fs i).1,
       (walkFields namer h w fs i).2.1,
       ((walkFields namer h w fs i).2.2.1).withName n,
       (walkFields namer h w fs i).2.2.2) := by
  induction fs with
  | nil => intro h w i n; rfl
  | cons f rest ih =>
    intro h w i n
    simp only [walkFields, walkTopField_withName, ih]
    cases (walkTopField namer h w f i).2.2.2 with
    | ok => simp
    | errAt s c => simp
    | panicked => simp

/-- C9: the `name` argument is accepted and stored but never consulted:
two calls differing only in the name produce identical results — the
same returned value, the same error outcome, and the same final heap. -/
theorem update_name_irrelevant (h : Heap) (root : Nat) (namer : FieldNameFunc)
    (sect n1 n2 : String) (set : List (String × GoValue)) :
    Update h root namer sect n1 set = Update h root namer sect n2 set := by
  by_cases hs : sect = ""
  · simp [Update, hs]
  · have hw : newWalker sect n1 set = (newWalker sect n2 set).withName n1 := rfl
    simp only [Update, reflectwalkWalk, if_neg hs, hw, walkFields_withName]
    rfl

/-- `topAddrs` of the `fieldAddr?` form. -/
theorem topAddrs_eq (fs : List TopField) : topAddrs fs = fs.filterMap fieldAddr? := by
  unfold topAddrs fieldAddr?
  rfl

/-! ## Deep copy characterisation -/

/-- One top-level field after `copystructure.Copy`, relative to the
original heap `h` and the extended heap `h'`: the descriptor and every
by-value payload are copied verbatim, and an indirection is rewritten
to a fresh cell holding a copy of the original pointee. -/
def copiedField (h h' : Heap) (f f' : TopField) : Prop :=
  f'.fname = f.fname ∧ f'.tags = f.tags ∧
  (match f.value, f'.value with
   | .direct s, .direct s' => s' = s
   | .plain g, .plain g' => g' = g
   | .indirect pt a, .indirect pt' a' =>
       pt' = pt ∧ h.length ≤ a' ∧ a' < h'.length ∧
       List.get? h' a' = some (.sec (heapSec h a))
   | _, _ => False)

/-- Reading below the original frontier is unchanged by appending. -/
theorem heapSec_append (h : Heap) (ext : List Cell) (a : Nat) (ha : a < h.length) :
    heapSec (h ++ ext) a = heapSec h a := by
  unfold heapSec
  rw [List.get?_append ha]

theorem copiedField_mono (h h1 h' : Heap)
    (hpre : ∀ j, j < h.length → heapSec h1 j = heapSec h j)
    (hlen : h.length ≤ h1.length) (f f' : TopField)
    (hub : ∀ pt a, f.value = .indirect pt a → a < h.length) :
    copiedField h1 h' f f' → copiedField h h' f f' := by
  intro hc
  obtain ⟨h1f, h2f, h3f⟩ := hc
  refine ⟨h1f, h2f, ?_⟩
  cases hv : f.value with
  | direct s => cases hv' : f'.value <;> (rw [hv, hv'] at h3f; exact h3f)
  | plain g => cases hv' : f'.value <;> (rw [hv, hv'] at h3f; exact h3f)
  | indirect pt a =>
    cases hv' : f'.value with
    | direct s => rw [hv, hv'] at h3f; exact h3f
    | plain g => rw [hv, hv'] at h3f; exact h3f
    | indirect pt' a' =>
      rw [hv, hv'] at h3f
      obtain ⟨hpt, hlb, hub', hget⟩ := h3f
      exact ⟨hpt, le_trans hlen hlb, hub',
        by rw [hget, hpre a (hub pt a hv)]⟩

theorem forall₂_copiedField_mono (h h1 h' : Heap)
    (hpre : ∀ j, j < h.length → heapSec h1 j = heapSec h j)
    (hlen : h.length ≤ h1.length) :
    ∀ {fs fs' : List TopField},
    List.Forall₂ (copiedField h1 h') fs fs' →
    (∀ f ∈ fs, ∀ pt a, f.value = .indirect pt a → a < h.length) →
    List.Forall₂ (copiedField h h') fs fs' := by
  intro fs fs' hfa
  induction hfa with
  | nil => intro _; exact .nil
  | cons hc _ ih =>
    intro hub
    exact .cons
      (copiedField_mono h h1 h' hpre hlen _ _
        (hub _ (List.mem_cons_self _ _)) hc)
      (ih fun f hf => hub f (List.mem_cons_of_mem _ hf))

/-- `copystructure.Copy` on the field list: the result heap extends the
input, every field is copied per `copiedField`, and the fresh pointee
addresses are strictly increasing and at or above the old frontier. -/
theorem copyTopFields_spec (fs : List TopField) : ∀ (h : Heap),
    (∀ f ∈ fs, ∀ pt a, f.value = .indirect pt a → a < h.length) →
    (∃ ext, (copyTopFields h fs).1 = h ++ ext) ∧
    List.Forall₂ (copiedField h (copyTopFields h fs).1) fs (copyTopFields h fs).2 ∧
    List.Pairwise (· < ·) (topAddrs (copyTopFields h fs).2) ∧
    (∀ a ∈ topAddrs (copyTopFields h fs).2, h.length ≤ a) := by
  induction fs with
  | nil =>
    intro h _
    exact ⟨⟨[], by simp [copyTopFields]⟩, by simp [copyTopFields],
      by simp [copyTopFields, topAddrs], by simp [copyTopFields, topAddrs]⟩
  | cons f rest ih =>
    intro h hwf
    cases hv : f.value with
    | indirect pt a =>
      have hrest : ∀ g ∈ rest, ∀ pt' a',
          g.value = .indirect pt' a' → a' < (h ++ [Cell.sec (heapSec h a)]).length := by
        intro g hg pt' a' hga
        calc a' < h.length := hwf g (List.mem_cons_of_mem _ hg) pt' a' hga
          _ ≤ _ := by simp
      obtain ⟨⟨ext2, hext2⟩, hfa, hpw, hlb⟩ := ih (h ++ [Cell.sec (heapSec h a)]) hrest
      have hlen1 : (h ++ [Cell.sec (heapSec h a)]).length = h.length + 1 := by simp
      have hpre : ∀ j, j < h.length →
          heapSec (h ++ [Cell.sec (heapSec h a)]) j = heapSec h j :=
        fun j hj => heapSec_append h _ j hj
      simp only [copyTopFields, hv]
      refine ⟨⟨Cell.sec (heapSec h a) :: ext2, by rw [hext2]; simp⟩, ?_, ?_, ?_⟩
      · refine .cons ?_ ?_
        · refine ⟨rfl, rfl, ?_⟩
          rw [hv]
          refine ⟨rfl, le_refl _, ?_, ?_⟩
          · rw [hext2, List.length_append, hlen1]
            omega
          · rw [hext2, List.get?_append (by rw [hlen1]; omega),
              List.get?_concat_length]
        · exact forall₂_copiedField_mono h _ _ hpre (by rw [hlen1]; omega) hfa
            (fun g hg => hwf g (List.mem_cons_of_mem _ hg))
      · have : topAddrs ({ f with value := TopVal.indirect pt h.length } ::
            (copyTopFields (h ++ [Cell.sec (heapSec h a)]) rest).2) =
            h.length :: topAddrs (copyTopFields (h ++ [Cell.sec (heapSec h a)]) rest).2 := by
          simp [topAddrs]
        rw [this]
        refine List.Pairwise.cons ?_ hpw
        intro b hb
        have := hlb b hb
        rw [hlen1] at this
        omega
      · intro b hb
        simp only [topAddrs, List.filterMap_cons] at hb
        rcases List.mem_cons.mp hb with hb | hb
        · omega
        · have := hlb b hb
          rw [hlen1] at this
          omega
    | direct s =>
      obtain ⟨hext, hfa, hpw, hlb⟩ := ih h
        (fun g hg => hwf g (List.mem_cons_of_mem _ hg))
      simp only [copyTopFields, hv]
      refine ⟨hext, ?_, ?_, ?_⟩
      · refine .cons ⟨rfl, rfl, by rw [hv]⟩ hfa
      · simpa [topAddrs, List.filterMap_cons, hv] using hpw
      · intro b hb
        simp only [topAddrs, List.filterMap_cons, hv] at hb
        exact hlb b hb
    | plain g =>
      obtain ⟨hext, hfa, hpw, hlb⟩ := ih h
        (fun g' hg => hwf g' (List.mem_cons_of_mem _ hg))
      simp only [copyTopFields, hv]
      refine ⟨hext, ?_, ?_, ?_⟩
      · refine .cons ⟨rfl, rfl, by rw [hv]⟩ hfa
      · simpa [topAddrs, List.filterMap_cons, hv] using hpw
      · intro b hb
        simp only [topAddrs, List.filterMap_cons, hv] at hb
        exact hlb b hb

/-! ## Immutability of the retained original -/

theorem lt_length_of_get?_eq_some {α : Type} {l : List α} {n : Nat} {a : α}
    (h : List.get? l n = some a) : n < l.length := by
  by_contra hn
  rw [List.get?_eq_none.mpr (le_of_not_lt hn)] at h
  exact absurd h (by simp)

theorem rootWF_elim (h : Heap) (root : Nat) (hwf : rootWF h root = true) :
    ∃ cfg, List.get? h root = some (.top cfg) ∧
      ∀ f ∈ cfg.fields, ∀ pt a, f.value = .indirect pt a →
        a < h.length ∧ ∃ s, List.get? h a = some (.sec s) := by
  unfold rootWF at hwf
  cases hr : List.get? h root with
  | none => rw [hr] at hwf; exact absurd hwf (by simp)
  | some c =>
    cases c with
    | sec s => rw [hr] at hwf; exact absurd hwf (by simp)
    | top cfg =>
      rw [hr] at hwf
      refine ⟨cfg, rfl, ?_⟩
      intro f hf pt a hva
      have hall := (List.all_eq_true.mp hwf) f hf
      rw [hva] at hall
      simp only [Bool.and_eq_true, decide_eq_true_eq] at hall
      refine ⟨hall.1, ?_⟩
      cases hg : List.get? h a with
      | none => rw [hg] at hall; exact absurd hall.2 (by simp)
      | some c2 =>
        cases c2 with
        | top cfg2 => rw [hg] at hall; exact absurd hall.2 (by simp)
        | sec s => exact ⟨s, rfl⟩

/-- A heap change that leaves everything below the old frontier alone
leaves the deep snapshot of a well-formed original unchanged. -/
theorem snapshot_congr (h h' : Heap) (root : Nat)
    (hwf : rootWF h root = true)
    (hpre : ∀ j, j < h.length → List.get? h' j = List.get? h j) :
    snapshot h' root = snapshot h root := by
  obtain ⟨cfg, hr, hflds⟩ := rootWF_elim h root hwf
  have hroot_lt : root < h.length := lt_length_of_get?_eq_some hr
  have htop : heapTop h' root = heapTop h root := by
    unfold heapTop; rw [hpre root hroot_lt]
  have hcfg : heapTop h root = cfg := by unfold heapTop; rw [hr]
  unfold snapshot
  rw [htop, hcfg]
  refine congrArg (Prod.mk cfg) ?_
  refine List.map_congr_left ?_
  intro f hf
  cases hv : f.value with
  | direct s => rfl
  | plain g => rfl
  | indirect pt a =>
    have ha := (hflds f hf pt a hv).1
    have : heapSec h' a = heapSec h a := by
      unfold heapSec; rw [hpre a ha]
    simp only [this]

/-- In every branch the heap `Update` leaves behind is the walked
clone's heap (`Update` never mutates through any other path). -/
theorem update_heap_eq (h : Heap) (root : Nat) (namer : FieldNameFunc)
    (sect nm : String) (set : List (String × GoValue)) (hs : ¬ sect = "") :
    (Update h root namer sect nm set).2 =
      (reflectwalkWalk namer (deepCopy h root).1 (deepCopy h root).2
        (newWalker sect nm set)).1 := by
  simp only [Update, if_neg hs]
  repeat' split
  all_goals rfl

/-- C1: whatever `Update` returns, every cell of the pre-call heap is
untouched, the deep snapshot of the retained original is unchanged,
and for a non-empty section the clone exists (the heap grew) even when
the override set is empty. -/
theorem update_preserves_original (h : Heap) (root : Nat) (namer : FieldNameFunc)
    (sect nm : String) (set : List (String × GoValue))
    (hwf : rootWF h root = true) :
    (∀ j, j < h.length →
      List.get? (Update h root namer sect nm set).2 j = List.get? h j) ∧
    snapshot (Update h root namer sect nm set).2 root = snapshot h root ∧
    (sect ≠ "" → h.length < (Update h root namer sect nm set).2.length) := by
  by_cases hs : sect = ""
  · refine ⟨?_, ?_, ?_⟩
    · intro j hj; rw [show (Update h root namer sect nm set).2 = h by simp [Update, hs]]
    · rw [show (Update h root namer sect nm set).2 = h by simp [Update, hs]]
    · intro hne; exact absurd hs hne
  · obtain ⟨cfg, hr, hflds⟩ := rootWF_elim h root hwf
    have hcfg : heapTop h root = cfg := by unfold heapTop; rw [hr]
    have haddr : ∀ f ∈ cfg.fields, ∀ pt a, f.value = .indirect pt a → a < h.length :=
      fun f hf pt a hva => (hflds f hf pt a hva).1
    obtain ⟨⟨ext, hext⟩, hfa, hpw, hlb⟩ := copyTopFields_spec cfg.fields h haddr
    have hdc : deepCopy h root =
        ((copyTopFields h cfg.fields).1 ++
          [Cell.top { cfg with fields := (copyTopFields h cfg.fields).2 }],
         (copyTopFields h cfg.fields).1.length) := by
      unfold deepCopy; rw [hcfg]
    have hfront : h.length ≤ (copyTopFields h cfg.fields).1.length := by
      rw [hext]; simp
    have hc1 : (deepCopy h root).1 =
        h ++ (ext ++ [Cell.top { cfg with fields := (copyTopFields h cfg.fields).2 }]) := by
      rw [hdc, hext, List.append_assoc]
    have hct : heapTop (deepCopy h root).1 (deepCopy h root).2 =
        { cfg with fields := (copyTopFields h cfg.fields).2 } := by
      rw [hdc]; unfold heapTop; rw [List.get?_concat_length]
    obtain ⟨hwlen, hwget⟩ := walkFields_heap namer (copyTopFields h cfg.fields).2
      (deepCopy h root).1 (newWalker sect nm set) 0
    have hrwheap : ∃ cell, (reflectwalkWalk namer (deepCopy h root).1 (deepCopy h root).2
        (newWalker sect nm set)).1 =
        heapSet (walkFields namer (deepCopy h root).1 (newWalker sect nm set)
          (copyTopFields h cfg.fields).2 0).1 (deepCopy h root).2 cell := by
      unfold reflectwalkWalk
      rw [hct]
      exact ⟨_, rfl⟩
    obtain ⟨cell, hrh⟩ := hrwheap
    have hheq := update_heap_eq h root namer sect nm set hs
    have hget : ∀ j, j < h.length →
        List.get? (Update h root namer sect nm set).2 j = List.get? h j := by
      intro j hj
      rw [hheq, hrh]
      have hjne : (deepCopy h root).2 ≠ j := by
        rw [hdc]
        omega
      rw [show heapSet (walkFields namer (deepCopy h root).1 (newWalker sect nm set)
            (copyTopFields h cfg.fields).2 0).1 (deepCopy h root).2 cell =
          List.set _ (deepCopy h root).2 cell from rfl,
        List.get?_set_ne _ _ hjne]
      rw [hwget j (fun hmem => absurd (hlb j hmem) (by omega))]
      rw [hc1, List.get?_append hj]
    refine ⟨hget, snapshot_congr h _ root hwf hget, fun _ => ?_⟩
    rw [hheq, hrh]
    have : (List.set (walkFields namer (deepCopy h root).1 (newWalker sect nm set)
        (copyTopFields h cfg.fields).2 0).1 (deepCopy h root).2 cell).length =
        (walkFields namer (deepCopy h root).1 (newWalker sect nm set)
          (copyTopFields h cfg.fields).2 0).1.length := by
      simp
    rw [show heapSet (walkFields namer (deepCopy h root).1 (newWalker sect nm set)
          (copyTopFields h cfg.fields).2 0).1 (deepCopy h root).2 cell =
        List.set _ (deepCopy h root).2 cell from rfl, this, hwlen, hc1]
    simp

/-- Witness for `update_preserves_original`: the two-section test
configuration with an empty override set. -/
theorem update_preserves_original_witness :
    rootWF testHeap 0 = true ∧
    ((∀ j, j < testHeap.length →
      List.get? (Update testHeap 0 RawFieldName "section-a" "" []).2 j =
        List.get? testHeap j) ∧
    snapshot (Update testHeap 0 RawFieldName "section-a" "" []).2 0 = snapshot testHeap 0 ∧
    ("section-a" ≠ "" →
      testHeap.length < (Update testHeap 0 RawFieldName "section-a" "" []).2.length)) :=
  ⟨by decide,
   update_preserves_original testHeap 0 RawFieldName "section-a" "" [] (by decide)⟩

/-! ## Behaviour when the section is absent -/

theorem forall₂_exists_left {α β : Type} {R : α → β → Prop} :
    ∀ {l1 : List α} {l2 : List β}, List.Forall₂ R l1 l2 →
    ∀ b ∈ l2, ∃ a ∈ l1, R a b := by
  intro l1 l2 hfa
  induction hfa with
  | nil => intro b hb; exact absurd hb (by simp)
  | cons hr _ ih =>
    intro b hb
    rcases List.mem_cons.mp hb with hb | hb
    · exact ⟨_, List.mem_cons_self _ _, hb ▸ hr⟩
    · obtain ⟨a, ha, har⟩ := ih b hb
      exact ⟨a, List.mem_cons_of_mem _ ha, har⟩

/-- `copystructure.Copy` keeps every field's descriptor. -/
theorem copyTopFields_tags (fs : List TopField) : ∀ h : Heap,
    List.Forall₂ (fun f f' => f'.fname = f.fname ∧ f'.tags = f.tags)
      fs (copyTopFields h fs).2 := by
  induction fs with
  | nil => intro h; simp [copyTopFields]
  | cons f rest ih =>
    intro h
    cases hv : f.value with
    | indirect pt a =>
      simp only [copyTopFields, hv]
      exact .cons ⟨rfl, rfl⟩ (ih _)
    | direct s =>
      simp only [copyTopFields, hv]
      exact .cons ⟨rfl, rfl⟩ (ih _)
    | plain g =>
      simp only [copyTopFields, hv]
      exact .cons ⟨rfl, rfl⟩ (ih _)

theorem topField_eta_direct (f : TopField) (s : StructVal) (hv : f.value = .direct s) :
    { f with value := TopVal.direct { s with fields := s.fields } } = f := by
  obtain ⟨fn, tg, v⟩ := f
  simp only at hv
  rw [hv]

/-- The deep copy's root cell. -/
theorem deepCopy_top (h : Heap) (root : Nat) :
    heapTop (deepCopy h root).1 (deepCopy h root).2 =
      { heapTop h root with fields := (copyTopFields h (heapTop h root).fields).2 } := by
  simp only [deepCopy]
  unfold heapTop
  rw [List.get?_concat_length]

/-- A walk whose target tag no field carries: every option walk is
skipped, nothing is consumed, no section slot is recorded, and no
error arises. -/
theorem walkFields_nomatch (namer : FieldNameFunc) (fs : List TopField) :
    ∀ (h : Heap) (w : ConfigWalker) (i : Nat),
    (∀ f ∈ fs, sectionTagOf f ≠ w.sect) →
    (walkFields namer h w fs i).2.1 = fs ∧
    (∃ tag, (walkFields namer h w fs i).2.2.1 = { w with currentFieldTag := tag }) ∧
    (walkFields namer h w fs i).2.2.2 = .ok := by
  induction fs with
  | nil => exact fun h w i _ => ⟨rfl, ⟨w.currentFieldTag, rfl⟩, rfl⟩
  | cons f rest ih =>
    intro h w i hnone
    have hne : sectionTagOf f ≠ w.sect := hnone f (List.mem_cons_self _ _)
    have hstep : stepTopTag w f i = { w with currentFieldTag := sectionTagOf f } := by
      rw [stepTopTag_eq, if_neg (fun hh => hne hh.symm)]
    have hw1tag : ({ w with currentFieldTag := sectionTagOf f } : ConfigWalker).currentFieldTag
        ≠ ({ w with currentFieldTag := sectionTagOf f } : ConfigWalker).sect := hne
    have hwtf : ∃ h2, walkTopField namer h w f i =
        (h2, f, { w with currentFieldTag := sectionTagOf f }, .ok) := by
      cases hv : f.value with
      | direct s =>
        refine ⟨h, ?_⟩
        simp only [walkTopField, hv, hstep, walkOptions_skip _ _ _ hw1tag]
        rw [topField_eta_direct f s hv]
      | indirect pt a =>
        refine ⟨heapSet h a (.sec (heapSec h a)), ?_⟩
        simp only [walkTopField, hv, hstep, walkOptions_skip _ _ _ hw1tag]
      | plain g =>
        refine ⟨h, ?_⟩
        simp only [walkTopField, hv, hstep]
    obtain ⟨h2, hwtf⟩ := hwtf
    obtain ⟨hfs, ⟨tag, hwk⟩, hst⟩ := ih h2
      { w with currentFieldTag := sectionTagOf f } (i + 1)
      (fun g hg => hnone g (List.mem_cons_of_mem _ hg))
    simp only [walkFields, hwtf]
    refine ⟨by rw [hfs], ⟨tag, by rw [hwk]⟩, hst⟩

/-- A walker that never recorded a section slot yields no section
object. -/
theorem sectionObject_newWalker (h0 : Heap) (r0 : Nat) (sect nm tag : String)
    (set : List (String × GoValue)) :
    sectionObject h0 r0 { newWalker sect nm set with currentFieldTag := tag } = none := rfl

/-- C3 (amended): when no top-level field carries the requested
section tag, `Update` returns no value and fails — with the
unknown-section error when the override set is empty, and with the
unknown-options error naming every key when it is not, because the
unused-keys check precedes the section check. -/
theorem update_unknown_section (h : Heap) (root : Nat) (namer : FieldNameFunc)
    (sect nm : String) (set : List (String × GoValue))
    (hs : sect ≠ "")
    (hnone : ∀ f ∈ (heapTop h root).fields, sectionTagOf f ≠ sect) :
    (Update h root namer sect nm set).1 =
      (if set.isEmpty then .err (.unknownSection sect)
       else .err (.unknownOptions (set.map Prod.fst) sect)) := by
  have htags := copyTopFields_tags (heapTop h root).fields h
  have hnone' : ∀ f ∈ (copyTopFields h (heapTop h root).fields).2,
      sectionTagOf f ≠ (newWalker sect nm set).sect := by
    intro f' hf'
    obtain ⟨f, hf, _, htg⟩ := forall₂_exists_left htags f' hf'
    show sectionTagOf f' ≠ sect
    rw [show sectionTagOf f' = sectionTagOf f by unfold sectionTagOf; rw [htg]]
    exact hnone f hf
  obtain ⟨hfs, ⟨tag, hwk⟩, hst⟩ := walkFields_nomatch namer
    (copyTopFields h (heapTop h root).fields).2
    (deepCopy h root).1 (newWalker sect nm set) 0 hnone'
  simp only [Update, if_neg hs, reflectwalkWalk, deepCopy_top]
  rw [hst, hwk]
  have hunused : unusedKeys { newWalker sect nm set with currentFieldTag := tag } =
      set.map Prod.fst := by
    unfold unusedKeys newWalker
    exact List.filter_eq_self.mpr (fun a _ => by simp [List.contains])
  rw [hunused]
  cases set with
  | nil =>
    rw [if_neg (by simp)]
    simp only [sectionObject_newWalker, List.isEmpty_nil, if_true]
  | cons kv rest =>
    rw [if_pos (by simp)]
    simp only [List.isEmpty_cons, Bool.false_eq_true, if_false]

/-- Witness for `update_unknown_section`, covering both branches of
the dichotomy: the absent section `unknown` yields the
unknown-section error with an empty set and the unknown-options error
with a one-key set. -/
theorem update_unknown_section_witness :
    ((Update testHeap 0 RawFieldName "unknown" "" []).1 =
      (if ([] : List (String × GoValue)).isEmpty
       then .err (.unknownSection "unknown")
       else .err (.unknownOptions
         (([] : List (String × GoValue)).map Prod.fst) "unknown"))) ∧
    ((Update testHeap 0 RawFieldName "unknown" "" [("x", .vString stringTy "v")]).1 =
      (if ([("x", GoValue.vString stringTy "v")] : List (String × GoValue)).isEmpty
       then .err (.unknownSection "unknown")
       else .err (.unknownOptions
         ([("x", GoValue.vString stringTy "v")].map Prod.fst) "unknown"))) :=
  ⟨update_unknown_section testHeap 0 RawFieldName "unknown" "" []
     (by decide) (by decide),
   update_unknown_section testHeap 0 RawFieldName "unknown" ""
     [("x", .vString stringTy "v")] (by decide) (by decide)⟩

/-! ## Section matching is tag-only -/

/-- Rename a top-level field's declared name, keeping tags and value. -/
def renameTopField (g : String → String) (f : TopField) : TopField :=
  { f with fname := g f.fname }

/-- Rename every top-level field name in a heap. -/
def renameCell (g : String → String) : Cell → Cell
  | .top cfg => .top { cfg with fields := cfg.fields.map (renameTopField g) }
  | .sec s => .sec s

def renameHeap (g : String → String) (h : Heap) : Heap :=
  h.map (renameCell g)

theorem heapSec_rename (g : String → String) (h : Heap) (a : Nat) :
    heapSec (renameHeap g h) a = heapSec h a := by
  unfold heapSec renameHeap
  rw [List.get?_map]
  cases List.get? h a with
  | none => rfl
  | some c => cases c <;> rfl

theorem heapTop_rename (g : String → String) (h : Heap) (a : Nat) :
    heapTop (renameHeap g h) a =
      { heapTop h a with fields := (heapTop h a).fields.map (renameTopField g) } := by
  unfold heapTop renameHeap
  rw [List.get?_map]
  cases List.get? h a with
  | none => rfl
  | some c => cases c <;> rfl

theorem length_renameHeap (g : String → String) (h : Heap) :
    (renameHeap g h).length = h.length := by
  unfold renameHeap; rw [List.length_map]

theorem copyTopFields_rename (g : String → String) (fs : List TopField) :
    ∀ h : Heap,
    copyTopFields (renameHeap g h) (fs.map (renameTopField g)) =
      (renameHeap g (copyTopFields h fs).1,
       (copyTopFields h fs).2.map (renameTopField g)) := by
  induction fs with
  | nil => intro h; simp [copyTopFields]
  | cons f rest ih =>
    intro h
    cases hv : f.value with
    | indirect pt a =>
      have hv' : (renameTopField g f).value = .indirect pt a := hv
      simp only [List.map_cons, copyTopFields, hv, hv', heapSec_rename,
        length_renameHeap]
      rw [show renameHeap g h ++ [Cell.sec (heapSec h a)] =
        renameHeap g (h ++ [Cell.sec (heapSec h a)]) by
          unfold renameHeap; rw [List.map_append]; rfl]
      rw [ih (h ++ [Cell.sec (heapSec h a)])]
      rfl
    | direct s =>
      have hv' : (renameTopField g f).value = .direct s := hv
      simp only [List.map_cons, copyTopFields, hv, hv']
      rw [ih h]
    | plain p =>
      have hv' : (renameTopField g f).value = .plain p := hv
      simp only [List.map_cons, copyTopFields, hv, hv']
      rw [ih h]

theorem deepCopy_rename (g : String → String) (h : Heap) (root : Nat) :
    deepCopy (renameHeap g h) root =
      (renameHeap g (deepCopy h root).1, (deepCopy h root).2) := by
  simp only [deepCopy, heapTop_rename, copyTopFields_rename, length_renameHeap]
  rw [show renameHeap g (copyTopFields h (heapTop h root).fields).1 ++
        [Cell.top ⟨(heapTop h root).tyName,
          List.map (renameTopField g) (copyTopFields h (heapTop h root).fields).2⟩] =
      renameHeap g ((copyTopFields h (heapTop h root).fields).1 ++
        [Cell.top ⟨(heapTop h root).tyName,
          (copyTopFields h (heapTop h root).fields).2⟩]) by
    unfold renameHeap
    rw [List.map_append]
    rfl]

/-- Replace the walker's recorded section field name. -/
def ConfigWalker.withSFN (w : ConfigWalker) (n : String) : ConfigWalker :=
  { w with sectionFieldName := n }

theorem stepOption_withSFN (namer : FieldNameFunc) (w : ConfigWalker)
    (f : OptField) (n : String) :
    stepOption namer (w.withSFN n) f =
      ((stepOption namer w f).1,
       ((stepOption namer w f).2.1).withSFN n,
       (stepOption namer w f).2.2) := by
  by_cases hg : w.currentFieldTag ≠ w.sect
  · simp [stepOption, ConfigWalker.withSFN, hg]
  · cases hl : List.lookup (namer f.desc) w.set with
    | none => simp [stepOption, ConfigWalker.withSFN, hg, hl]
    | some sv =>
      cases hc : weakCopyValue f.canSet sv f.value with
      | ok v => simp [stepOption, ConfigWalker.withSFN, hg, hl, hc]
      | panics => simp [stepOption, ConfigWalker.withSFN, hg, hl, hc]
      | errNotSettable => simp [stepOption, ConfigWalker.withSFN, hg, hl, hc]
      | errWrongType k1 k2 => simp [stepOption, ConfigWalker.withSFN, hg, hl, hc]

theorem walkOptions_withSFN (namer : FieldNameFunc) (fs : List OptField) :
    ∀ (w : ConfigWalker) (n : String),
    walkOptions namer (w.withSFN n) fs =
      ((walkOptions namer w fs).1,
       ((walkOptions namer w fs).2.1).withSFN n,
       (walkOptions namer w fs).2.2) := by
  induction fs with
  | nil => intro w n; rfl
  | cons f rest ih =>
    intro w n
    simp only [walkOptions, stepOption_withSFN, ih]
    cases (stepOption namer w f).2.2 with
    | ok => simp
    | errAt s c => simp
    | panicked => simp

/-- After the section-level callback on a renamed field, the walker is
the original callback's result with its recorded field name renamed. -/
theorem stepTopTag_rename (g : String → String) (w : ConfigWalker)
    (f : TopField) (i : Nat) (n0 : String) :
    stepTopTag (w.withSFN n0) (renameTopField g f) i =
      (if w.sect = sectionTagOf f
       then (stepTopTag w f i).withSFN (g f.fname)
       else (stepTopTag w f i).withSFN n0) := by
  have htg : sectionTagOf (renameTopField g f) = sectionTagOf f := rfl
  rw [stepTopTag_eq, stepTopTag_eq, htg]
  unfold ConfigWalker.withSFN
  by_cases hs : w.sect = sectionTagOf f
  · rw [if_pos hs, if_pos hs, if_pos hs]; rfl
  · rw [if_neg hs, if_neg hs, if_neg hs]

theorem heapSet_rename_sec (g : String → String) (h : Heap) (a : Nat)
    (s : StructVal) :
    heapSet (renameHeap g h) a (.sec s) = renameHeap g (heapSet h a (.sec s)) := by
  unfold heapSet renameHeap
  rw [List.map_set]
  rfl

theorem walkTopField_rename (g : String → String) (namer : FieldNameFunc)
    (h : Heap) (w : ConfigWalker) (f : TopField) (i : Nat) (n0 : String) :
    ∃ n1, walkTopField namer (renameHeap g h) (w.withSFN n0) (renameTopField g f) i =
      (renameHeap g (walkTopField namer h w f i).1,
       renameTopField g (walkTopField namer h w f i).2.1,
       ((walkTopField namer h w f i).2.2.1).withSFN n1,
       (walkTopField namer h w f i).2.2.2) := by
  refine ⟨if w.sect = sectionTagOf f then g f.fname else n0, ?_⟩
  have hv' : (renameTopField g f).value = f.value := rfl
  have hstep : stepTopTag (w.withSFN n0) (renameTopField g f) i =
      (stepTopTag w f i).withSFN (if w.sect = sectionTagOf f then g f.fname else n0) := by
    rw [stepTopTag_rename]
    by_cases hs : w.sect = sectionTagOf f
    · rw [if_pos hs, if_pos hs]
    · rw [if_neg hs, if_neg hs]
  cases hv : f.value with
  | direct s =>
    simp only [walkTopField, hv', hv, hstep, walkOptions_withSFN]
    rfl
  | indirect pt a =>
    simp only [walkTopField, hv', hv, hstep, walkOptions_withSFN,
      heapSec_rename, heapSet_rename_sec]
  | plain p =>
    simp only [walkTopField, hv', hv, hstep]

theorem walkFields_rename (g : String → String) (namer : FieldNameFunc)
    (fs : List TopField) :
    ∀ (h : Heap) (w : ConfigWalker) (i : Nat) (n0 : String),
    ∃ n1, walkFields namer (renameHeap g h) (w.withSFN n0) (fs.map (renameTopField g)) i =
      (renameHeap g (walkFields namer h w fs i).1,
       (walkFields namer h w fs i).2.1.map (renameTopField g),
       ((walkFields namer h w fs i).2.2.1).withSFN n1,
       (walkFields namer h w fs i).2.2.2) := by
  induction fs with
  | nil => exact fun h w i n0 => ⟨n0, rfl⟩
  | cons f rest ih =>
    intro h w i n0
    obtain ⟨n1, hf⟩ := walkTopField_rename g namer h w f i n0
    simp only [List.map_cons, walkFields, hf]
    cases hst : (walkTopField namer h w f i).2.2.2 with
    | ok =>
      obtain ⟨n2, hr⟩ := ih (walkTopField namer h w f i).1
        (walkTopField namer h w f i).2.2.1 (i + 1) n1
      rw [hr]
      exact ⟨n2, rfl⟩
    | errAt s c => exact ⟨n1, rfl⟩
    | panicked => exact ⟨n1, rfl⟩

/-- Top-level renaming is invisible to `sectionObject`: the recorded
slot's value is unchanged. -/
theorem sectionObject_rename (g : String → String) (h2 : Heap) (r2 : Nat)
    (w2 : ConfigWalker) :
    sectionObject (renameHeap g h2) r2 w2 = sectionObject h2 r2 w2 := by
  unfold sectionObject
  cases w2.sectionIdx with
  | none => rfl
  | some i =>
    rw [heapTop_rename]
    simp only [List.get?_map]
    cases List.get? (heapTop h2 r2).fields i with
    | none => rfl
    | some f => rfl

/-- C2: with a non-empty section argument, a top-level field is
recorded as the target section slot exactly when the first
comma-separated element of its `configupdate` tag equals the section
(the field otherwise only updates the current tag), and renaming every
top-level field name — leaving tags untouched — changes neither the
returned value nor the error outcome of any call: the declared name is
never a fallback for section matching. -/
theorem section_match_by_tag_only (w : ConfigWalker) (f : TopField) (i : Nat)
    (hs : w.sect ≠ "") :
    ((stepTopTag w f i).sectionIdx =
      (if sectionTagOf f = w.sect then some i else w.sectionIdx)) ∧
    (∀ (g : String → String) (h : Heap) (root : Nat) (namer : FieldNameFunc)
       (nm : String) (set : List (String × GoValue)),
      (Update (renameHeap g h) root namer w.sect nm set).1 =
        (Update h root namer w.sect nm set).1) := by
  constructor
  · rw [stepTopTag_eq]
    by_cases hm : w.sect = sectionTagOf f
    · rw [if_pos hm, if_pos (by rw [hm])]
    · rw [if_neg hm, if_neg (fun hh => hm hh.symm)]
  · intro g h root namer nm set
    have hsect : ¬ w.sect = "" := hs
    obtain ⟨n1, hwf⟩ := walkFields_rename g namer
      (copyTopFields h (heapTop h root).fields).2
      (deepCopy h root).1 (newWalker w.sect nm set) 0 ""
    rw [show ((newWalker w.sect nm set).withSFN "") = newWalker w.sect nm set
      from rfl] at hwf
    simp only [Update, if_neg hsect, reflectwalkWalk, deepCopy_rename,
      heapTop_rename, deepCopy_top]
    cases hst : (walkFields namer (deepCopy h root).1 (newWalker w.sect nm set)
        (copyTopFields h (heapTop h root).fields).2 0).2.2.2 with
    | panicked => simp only [hwf, hst]
    | errAt s c => simp only [hwf, hst]
    | ok =>
      simp only [hwf, hst]
      rw [show ∀ (w2 : ConfigWalker) (n : String),
          unusedKeys (w2.withSFN n) = unusedKeys w2 from fun _ _ => rfl]
      split
      · rfl
      · rw [show ∀ (h2 : Heap) (r2 : Nat) (w2 : ConfigWalker) (n : String),
            sectionObject h2 r2 (w2.withSFN n) = sectionObject h2 r2 w2
            from fun _ _ _ _ => rfl]
        rw [show (Cell.top ⟨(heapTop h root).tyName,
              List.map (renameTopField g)
                (walkFields namer (deepCopy h root).1 (newWalker w.sect nm set)
                  (copyTopFields h (heapTop h root).fields).2 0).2.1⟩) =
            renameCell g (Cell.top ⟨(heapTop h root).tyName,
              (walkFields namer (deepCopy h root).1 (newWalker w.sect nm set)
                (copyTopFields h (heapTop h root).fields).2 0).2.1⟩) from rfl]
        rw [show ∀ (h2 : Heap) (a : Nat) (c : Cell),
            heapSet (renameHeap g h2) a (renameCell g c) = renameHeap g (heapSet h2 a c)
            from fun h2 a c => by unfold heapSet renameHeap; rw [← List.map_set]]
        rw [sectionObject_rename]
        cases sectionObject
            (heapSet (walkFields namer (deepCopy h root).1 (newWalker w.sect nm set)
              (copyTopFields h (heapTop h root).fields).2 0).1 (deepCopy h root).2
              (Cell.top ⟨(heapTop h root).tyName,
                (walkFields namer (deepCopy h root).1 (newWalker w.sect nm set)
                  (copyTopFields h (heapTop h root).fields).2 0).2.1⟩))
            (deepCopy h root).2
            (walkFields namer (deepCopy h root).1 (newWalker w.sect nm set)
              (copyTopFields h (heapTop h root).fields).2 0).2.2.1 with
        | none => rfl
        | some v => rfl

/-- Witness for `section_match_by_tag_only`: the walker for section
`section-a` on the first field of the test configuration. -/
theorem section_match_by_tag_only_witness :
    ((stepTopTag (newWalker "section-a" "" [])
        ⟨"SectionA", [(structTagKey, "section-a")], .direct sectionA⟩ 0).sectionIdx =
      (if sectionTagOf ⟨"SectionA", [(structTagKey, "section-a")], .direct sectionA⟩ =
          (newWalker "section-a" "" []).sect
       then some 0 else (newWalker "section-a" "" []).sectionIdx)) ∧
    (∀ (g : String → String) (h : Heap) (root : Nat) (namer : FieldNameFunc)
       (nm : String) (set : List (String × GoValue)),
      (Update (renameHeap g h) root namer (newWalker "section-a" "" []).sect nm set).1 =
        (Update h root namer (newWalker "section-a" "" []).sect nm set).1) :=
  section_match_by_tag_only (newWalker "section-a" "" [])
    ⟨"SectionA", [(structTagKey, "section-a")], .direct sectionA⟩ 0 (by decide)

/-! ## The successful walk, characterised -/

theorem markUsed_mem (k n : String) (used : List String) :
    k ∈ markUsed n used ↔ k = n ∨ k ∈ used := by
  unfold markUsed
  split
  next hcont =>
    have hn : n ∈ used := by simpa using hcont
    constructor
    · exact fun hk => Or.inr hk
    · rintro (rfl | hk)
      · exact hn
      · exact hk
  · rw [List.mem_append, List.mem_singleton]
    exact Or.comm

/-- On a section the walker cares about, an error-free option walk
updates exactly the fields whose external name is a key of the set and
marks exactly the resolved keys used. -/
theorem walkOptions_ok_spec (namer : FieldNameFunc) (fs : List OptField) :
    ∀ w : ConfigWalker, w.currentFieldTag = w.sect →
    (walkOptions namer w fs).2.2 = .ok →
    List.Forall₂ (optUpdated namer w.set) fs (walkOptions namer w fs).1 ∧
    (∀ k, k ∈ (walkOptions namer w fs).2.1.used ↔
      k ∈ w.used ∨ ∃ g ∈ fs, namer g.desc = k ∧ (List.lookup k w.set).isSome) := by
  induction fs with
  | nil =>
    intro w _ _
    refine ⟨.nil, fun k => ?_⟩
    simp [walkOptions]
  | cons f rest ih =>
    intro w htag hok
    have hguard : ¬ (w.currentFieldTag ≠ w.sect) := fun hn => hn htag
    cases hl : List.lookup (namer f.desc) w.set with
    | none =>
      have hstep : stepOption namer w f = (f, w, .ok) := by
        simp [stepOption, hguard, hl]
      rw [show walkOptions namer w (f :: rest) =
          ((stepOption namer w f).1 ::
            (walkOptions namer (stepOption namer w f).2.1 rest).1,
           (walkOptions namer (stepOption namer w f).2.1 rest).2.1,
           (walkOptions namer (stepOption namer w f).2.1 rest).2.2) from by
        simp only [walkOptions, hstep]] at hok ⊢
      rw [hstep] at hok ⊢
      obtain ⟨hfa, hused⟩ := ih w htag hok
      refine ⟨.cons ?_ hfa, fun k => ?_⟩
      · refine ⟨rfl, rfl, rfl, ?_⟩
        rw [hl]
      · rw [hused k]
        constructor
        · rintro (hk | ⟨g, hg, hgk⟩)
          · exact Or.inl hk
          · exact Or.inr ⟨g, List.mem_cons_of_mem _ hg, hgk⟩
        · rintro (hk | ⟨g, hg, hgk, hgs⟩)
          · exact Or.inl hk
          · rcases List.mem_cons.mp hg with rfl | hg
            · exfalso
              rw [hgk] at hl
              rw [hl] at hgs
              exact absurd hgs (by simp)
            · exact Or.inr ⟨g, hg, hgk, hgs⟩
    | some sv =>
      cases hc : weakCopyValue f.canSet sv f.value with
      | ok v =>
        have hstep : stepOption namer w f =
            ({ f with value := v },
             { w with used := markUsed (namer f.desc) w.used }, .ok) := by
          simp [stepOption, hguard, hl, hc]
        rw [show walkOptions namer w (f :: rest) =
            ((stepOption namer w f).1 ::
              (walkOptions namer (stepOption namer w f).2.1 rest).1,
             (walkOptions namer (stepOption namer w f).2.1 rest).2.1,
             (walkOptions namer (stepOption namer w f).2.1 rest).2.2) from by
          simp only [walkOptions, hstep]] at hok ⊢
        rw [hstep] at hok ⊢
        obtain ⟨hfa, hused⟩ := ih { w with used := markUsed (namer f.desc) w.used }
          htag hok
        refine ⟨.cons ?_ hfa, fun k => ?_⟩
        · refine ⟨rfl, rfl, rfl, ?_⟩
          rw [hl]
          exact hc
        · rw [hused k]
          simp only [markUsed_mem]
          constructor
          · rintro ((rfl | hk) | ⟨g, hg, hgk⟩)
            · exact Or.inr ⟨f, List.mem_cons_self _ _, rfl, by rw [hl]; rfl⟩
            · exact Or.inl hk
            · exact Or.inr ⟨g, List.mem_cons_of_mem _ hg, hgk⟩
          · rintro (hk | ⟨g, hg, hgk, hgs⟩)
            · exact Or.inl (Or.inr hk)
            · rcases List.mem_cons.mp hg with rfl | hg
              · exact Or.inl (Or.inl hgk.symm)
              · exact Or.inr ⟨g, hg, hgk, hgs⟩
      | panics =>
        exfalso
        have hstep : stepOption namer w f = (f, w, .panicked) := by
          simp [stepOption, hguard, hl, hc]
        rw [show walkOptions namer w (f :: rest) =
            ((stepOption namer w f).1 :: rest, (stepOption namer w f).2.1, .panicked)
            from by simp only [walkOptions, hstep]] at hok
        exact absurd hok (by simp)
      | errNotSettable =>
        exfalso
        have hstep : stepOption namer w f = (f, w, .errAt (namer f.desc) .errNotSettable) := by
          simp [stepOption, hguard, hl, hc]
        rw [show walkOptions namer w (f :: rest) =
            ((stepOption namer w f).1 :: rest, (stepOption namer w f).2.1,
              .errAt (namer f.desc) .errNotSettable)
            from by simp only [walkOptions, hstep]] at hok
        exact absurd hok (by simp)
      | errWrongType k1 k2 =>
        exfalso
        have hstep : stepOption namer w f =
            (f, w, .errAt (namer f.desc) (.errWrongType k1 k2)) := by
          simp [stepOption, hguard, hl, hc]
        rw [show walkOptions namer w (f :: rest) =
            ((stepOption namer w f).1 :: rest, (stepOption namer w f).2.1,
              .errAt (namer f.desc) (.errWrongType k1 k2))
            from by simp only [walkOptions, hstep]] at hok
        exact absurd hok (by simp)

theorem heapSec_set_ne (h : Heap) (a x : Nat) (c : Cell) (hne : a ≠ x) :
    heapSec (heapSet h a c) x = heapSec h x := by
  unfold heapSec heapSet
  rw [List.get?_set_ne _ _ hne]

theorem heapSec_set_self (h : Heap) (a x : Nat) :
    heapSec (heapSet h a (Cell.sec (heapSec h a))) x = heapSec h x := by
  by_cases hax : a = x
  · subst hax
    unfold heapSec heapSet
    by_cases ha : a < h.length
    · rw [List.get?_set_eq_of_lt _ ha]
    · rw [List.set_eq_of_length_le (le_of_not_lt ha)]
  · exact heapSec_set_ne h a x _ hax

theorem heapSec_set_eq (h : Heap) (a : Nat) (s : StructVal) (ha : a < h.length) :
    heapSec (heapSet h a (Cell.sec s)) a = s := by
  unfold heapSec heapSet
  rw [List.get?_set_eq_of_lt _ ha]

/-- One top-level field after an error-free walk, relative to the heap
`h` the walk started from and the heap `h'` it left behind: matching
fields have their (possibly pointed-to) aggregate updated per
`secUpdated`; all other fields, and their pointees, are untouched. -/
def walkedField (h h' : Heap) (namer : FieldNameFunc)
    (set : List (String × GoValue)) (sect : String) (f f' : TopField) : Prop :=
  f'.fname = f.fname ∧ f'.tags = f.tags ∧
  (if sectionTagOf f = sect then
    (match f.value, f'.value with
     | .direct s, .direct s' => secUpdated namer set s s'
     | .indirect pt a, .indirect pt' a' =>
         pt' = pt ∧ a' = a ∧
         secUpdated namer set (heapSec h a) (heapSec h' a)
     | .plain g, .plain g' => g' = g
     | _, _ => False)
  else
    f' = f ∧ ∀ pt a, f.value = .indirect pt a → heapSec h' a = heapSec h a)

theorem walkedField_initial_congr (h0 h1 h' : Heap) (namer : FieldNameFunc)
    (set : List (String × GoValue)) (sect : String) (f f' : TopField)
    (hsec : ∀ pt a, f.value = .indirect pt a → heapSec h1 a = heapSec h0 a) :
    walkedField h1 h' namer set sect f f' → walkedField h0 h' namer set sect f f' := by
  intro ⟨h1f, h2f, h3f⟩
  refine ⟨h1f, h2f, ?_⟩
  by_cases hm : sectionTagOf f = sect
  · rw [if_pos hm] at h3f ⊢
    cases hv : f.value with
    | direct s => cases hv' : f'.value <;> (rw [hv, hv'] at h3f; exact h3f)
    | plain g => cases hv' : f'.value <;> (rw [hv, hv'] at h3f; exact h3f)
    | indirect pt a =>
      cases hv' : f'.value with
      | direct s => rw [hv, hv'] at h3f; exact h3f
      | plain g => rw [hv, hv'] at h3f; exact h3f
      | indirect pt' a' =>
        rw [hv, hv'] at h3f
        obtain ⟨hp, ha, hsu⟩ := h3f
        exact ⟨hp, ha, by rw [← hsec pt a hv]; exact hsu⟩
  · rw [if_neg hm] at h3f ⊢
    exact ⟨h3f.1, fun pt a hv => by rw [h3f.2 pt a hv, hsec pt a hv]⟩

theorem walkedField_final_congr (h h1 h' : Heap) (namer : FieldNameFunc)
    (set : List (String × GoValue)) (sect : String) (f f' : TopField)
    (hsec : ∀ pt a, f.value = .indirect pt a → heapSec h' a = heapSec h1 a) :
    walkedField h h1 namer set sect f f' → walkedField h h' namer set sect f f' := by
  intro ⟨h1f, h2f, h3f⟩
  refine ⟨h1f, h2f, ?_⟩
  by_cases hm : sectionTagOf f = sect
  · rw [if_pos hm] at h3f ⊢
    cases hv : f.value with
    | direct s => cases hv' : f'.value <;> (rw [hv, hv'] at h3f; exact h3f)
    | plain g => cases hv' : f'.value <;> (rw [hv, hv'] at h3f; exact h3f)
    | indirect pt a =>
      cases hv' : f'.value with
      | direct s => rw [hv, hv'] at h3f; exact h3f
      | plain g => rw [hv, hv'] at h3f; exact h3f
      | indirect pt' a' =>
        rw [hv, hv'] at h3f
        obtain ⟨hp, ha, hsu⟩ := h3f
        exact ⟨hp, ha, by rw [hsec pt a hv]; exact hsu⟩
  · rw [if_neg hm] at h3f ⊢
    exact ⟨h3f.1, fun pt a hv => by rw [hsec pt a hv, h3f.2 pt a hv]⟩

theorem optFieldsOf_congr (h0 h1 : Heap) (f : TopField)
    (hsec : ∀ pt a, f.value = .indirect pt a → heapSec h1 a = heapSec h0 a) :
    optFieldsOf h1 f = optFieldsOf h0 f := by
  unfold optFieldsOf
  cases hv : f.value with
  | direct s => rfl
  | plain g => rfl
  | indirect pt a => simp only [hsec pt a hv]

theorem walkTopField_ok_spec (namer : FieldNameFunc) (h : Heap) (w : ConfigWalker)
    (f : TopField) (i : Nat)
    (hok : (walkTopField namer h w f i).2.2.2 = .ok) :
    walkedField h (walkTopField namer h w f i).1 namer w.set w.sect f
      (walkTopField namer h w f i).2.1 ∧
    (∀ k, k ∈ ((walkTopField namer h w f i).2.2.1).used ↔ k ∈ w.used ∨
      (sectionTagOf f = w.sect ∧ ∃ g ∈ optFieldsOf h f,
        namer g.desc = k ∧ (List.lookup k w.set).isSome)) ∧
    (((walkTopField namer h w f i).2.2.1).sectionIdx =
      if sectionTagOf f = w.sect then some i else w.sectionIdx) ∧
    ((walkTopField namer h w f i).2.2.1).sect = w.sect ∧
    ((walkTopField namer h w f i).2.2.1).set = w.set := by
  by_cases hm : sectionTagOf f = w.sect
  · have hstep : stepTopTag w f i =
        { w with
          currentFieldTag := sectionTagOf f, sectionFieldName := f.fname, sectionIdx := some i } := by
      rw [stepTopTag_eq, if_pos hm.symm]
    have htag : ({ w with
        currentFieldTag := sectionTagOf f, sectionFieldName := f.fname, sectionIdx := some i } :
          ConfigWalker).currentFieldTag =
        ({ w with
        currentFieldTag := sectionTagOf f, sectionFieldName := f.fname, sectionIdx := some i } :
          ConfigWalker).sect := hm
    cases hv : f.value with
    | direct s =>
      simp only [walkTopField, hv, hstep] at hok ⊢
      obtain ⟨hfa, hused⟩ := walkOptions_ok_spec namer s.fields _ htag hok
      obtain ⟨u, hstate⟩ := walkOptions_state namer s.fields
        { w with
          currentFieldTag := sectionTagOf f, sectionFieldName := f.fname, sectionIdx := some i }
      refine ⟨⟨rfl, rfl, ?_⟩, fun k => ?_, ?_, ?_, ?_⟩
      · rw [if_pos hm, hv]
        exact ⟨rfl, hfa⟩
      · rw [hused k]
        constructor
        · rintro (hk | hg)
          · exact Or.inl hk
          · exact Or.inr ⟨hm, by rw [optFieldsOf, hv]; exact hg⟩
        · rintro (hk | ⟨_, hg⟩)
          · exact Or.inl hk
          · rw [optFieldsOf, hv] at hg
            exact Or.inr hg
      · rw [hstate, if_pos hm]
      · rw [hstate]
      · rw [hstate]
    | indirect pt a =>
      simp only [walkTopField, hv, hstep] at hok ⊢
      obtain ⟨hfa, hused⟩ := walkOptions_ok_spec namer (heapSec h a).fields _ htag hok
      obtain ⟨u, hstate⟩ := walkOptions_state namer (heapSec h a).fields
        { w with
          currentFieldTag := sectionTagOf f, sectionFieldName := f.fname, sectionIdx := some i }
      refine ⟨⟨rfl, rfl, ?_⟩, fun k => ?_, ?_, ?_, ?_⟩
      · rw [if_pos hm, hv]
        refine ⟨rfl, rfl, ?_⟩
        by_cases ha : a < h.length
        · rw [heapSec_set_eq _ _ _ ha]
          exact ⟨rfl, hfa⟩
        · have hnoop : ∀ c : Cell, heapSet h a c = h :=
            fun c => List.set_eq_of_length_le (le_of_not_lt ha)
          have hdef : heapSec h a = default := by
            unfold heapSec
            rw [List.get?_eq_none.mpr (le_of_not_lt ha)]
          rw [hnoop]
          refine ⟨rfl, ?_⟩
          rw [hdef]
          exact List.Forall₂.nil
      · rw [hused k]
        constructor
        · rintro (hk | hg)
          · exact Or.inl hk
          · exact Or.inr ⟨hm, by rw [optFieldsOf, hv]; exact hg⟩
        · rintro (hk | ⟨_, hg⟩)
          · exact Or.inl hk
          · rw [optFieldsOf, hv] at hg
            exact Or.inr hg
      · rw [hstate, if_pos hm]
      · rw [hstate]
      · rw [hstate]
    | plain g =>
      simp only [walkTopField, hv, hstep] at hok ⊢
      refine ⟨⟨rfl, rfl, ?_⟩, fun k => ?_, ?_, by trivial, by trivial⟩
      · rw [if_pos hm, hv]
      · constructor
        · exact fun hk => Or.inl hk
        · rintro (hk | ⟨_, hg⟩)
          · exact hk
          · rw [optFieldsOf, hv] at hg
            exact absurd hg.choose_spec.1 (by simp)
      · rw [if_pos hm]
  · have hstep : stepTopTag w f i = { w with currentFieldTag := sectionTagOf f } := by
      rw [stepTopTag_eq, if_neg (fun hh => hm hh.symm)]
    have htag : ({ w with currentFieldTag := sectionTagOf f } : ConfigWalker).currentFieldTag
        ≠ ({ w with currentFieldTag := sectionTagOf f } : ConfigWalker).sect := hm
    cases hv : f.value with
    | direct s =>
      simp only [walkTopField, hv, hstep, walkOptions_skip _ _ _ htag] at hok ⊢
      refine ⟨⟨rfl, rfl, ?_⟩, fun k => ?_, ?_, by trivial⟩
      · rw [if_neg hm]
        exact ⟨topField_eta_direct f s hv, fun pt a hva => rfl⟩
      · constructor
        · exact fun hk => Or.inl hk
        · rintro (hk | ⟨hmm, _⟩)
          · exact hk
          · exact absurd hmm hm
      · rw [if_neg hm]
    | indirect pt a =>
      simp only [walkTopField, hv, hstep, walkOptions_skip _ _ _ htag] at hok ⊢
      refine ⟨⟨rfl, rfl, ?_⟩, fun k => ?_, ?_, by trivial, by trivial⟩
      · rw [if_neg hm]
        refine ⟨rfl, fun pt' a' hva => ?_⟩
        rw [hv] at hva
        cases hva
        exact heapSec_set_self h a a
      · constructor
        · exact fun hk => Or.inl hk
        · rintro (hk | ⟨hmm, _⟩)
          · exact hk
          · exact absurd hmm hm
      · rw [if_neg hm]
    | plain g =>
      simp only [walkTopField, hv, hstep] at hok ⊢
      refine ⟨⟨rfl, rfl, ?_⟩, fun k => ?_, ?_, by trivial⟩
      · rw [if_neg hm]
        exact ⟨rfl, fun pt a hva => rfl⟩
      · constructor
        · exact fun hk => Or.inl hk
        · rintro (hk | ⟨hmm, _⟩)
          · exact hk
          · exact absurd hmm hm
      · rw [if_neg hm]

theorem forall₂_imp_mem {α β : Type} {R S : α → β → Prop} :
    ∀ {l1 : List α} {l2 : List β}, List.Forall₂ R l1 l2 →
    (∀ a ∈ l1, ∀ b, R a b → S a b) → List.Forall₂ S l1 l2 := by
  intro l1 l2 hfa
  induction hfa with
  | nil => intro _; exact .nil
  | cons hr _ ih =>
    intro hmem
    exact .cons (hmem _ (List.mem_cons_self _ _) _ hr)
      (ih fun a ha b hr' => hmem a (List.mem_cons_of_mem _ ha) b hr')

theorem heapSec_of_get?_congr (h1 h2 : Heap) (x : Nat)
    (hg : List.get? h1 x = List.get? h2 x) : heapSec h1 x = heapSec h2 x := by
  unfold heapSec
  rw [hg]

/-- The error-free walk over the top-level fields, characterised:
the fields (and the heap cells behind them) are updated exactly on the
matching sections, the used keys are exactly the resolved ones, and
the recorded slot is the last matching field. -/
theorem walkFields_ok_spec (namer : FieldNameFunc) (fs : List TopField) :
    ∀ (h : Heap) (w : ConfigWalker) (i : Nat),
    List.Pairwise (· ≠ ·) (topAddrs fs) →
    (walkFields namer h w fs i).2.2.2 = .ok →
    List.Forall₂ (walkedField h (walkFields namer h w fs i).1 namer w.set w.sect)
      fs (walkFields namer h w fs i).2.1 ∧
    (∀ k, k ∈ ((walkFields namer h w fs i).2.2.1).used ↔ k ∈ w.used ∨
      ∃ f ∈ fs, sectionTagOf f = w.sect ∧ ∃ g ∈ optFieldsOf h f,
        namer g.desc = k ∧ (List.lookup k w.set).isSome) ∧
    (((walkFields namer h w fs i).2.2.1).sectionIdx =
      match lastMatchIdx w.sect fs with
      | some j => some (i + j)
      | none => w.sectionIdx) ∧
    ((walkFields namer h w fs i).2.2.1).sect = w.sect ∧
    ((walkFields namer h w fs i).2.2.1).set = w.set := by
  induction fs with
  | nil =>
    intro h w i _ _
    refine ⟨.nil, fun k => by simp [walkFields], ?_, rfl, rfl⟩
    simp [walkFields, lastMatchIdx]
  | cons f rest ih =>
    intro h w i hpw hok
    -- decompose the pairwise hypothesis
    have hpw' : List.Pairwise (· ≠ ·) (topAddrs rest) ∧
        (∀ a, fieldAddr? f = some a → ∀ b ∈ topAddrs rest, a ≠ b) := by
      rw [topAddrs_eq, List.filterMap_cons] at hpw
      cases hfa : fieldAddr? f with
      | none => rw [hfa] at hpw; exact ⟨by rwa [topAddrs_eq], fun a ha => by cases (hfa ▸ ha : (none : Option Nat) = some a)⟩
      | some a =>
        rw [hfa] at hpw
        have hpc := List.pairwise_cons.mp hpw
        refine ⟨by rw [topAddrs_eq]; exact hpc.2, ?_⟩
        intro a' ha' b hb
        have haa : a = a' := Option.some.inj ha'
        subst haa
        exact hpc.1 b (by rwa [topAddrs_eq] at hb)
    cases hst : (walkTopField namer h w f i).2.2.2 with
    | errAt s c =>
      exfalso
      simp only [walkFields, hst] at hok
      exact absurd hok (by simp)
    | panicked =>
      exfalso
      simp only [walkFields, hst] at hok
      exact absurd hok (by simp)
    | ok =>
      obtain ⟨hwf1, hused1, hsidx1, hsect1, hset1⟩ :=
        walkTopField_ok_spec namer h w f i hst
      simp only [walkFields, hst] at hok ⊢
      obtain ⟨hfaR, husedR, hsidxR, hsectR, hsetR⟩ :=
        ih (walkTopField namer h w f i).1 (walkTopField namer h w f i).2.2.1
          (i + 1) hpw'.1 hok
      -- heap congruence below the head's address and off the rest's
      obtain ⟨_, hT1get⟩ := walkTopField_heap namer h w f i
      obtain ⟨_, hR1get⟩ := walkFields_heap namer rest (walkTopField namer h w f i).1
        (walkTopField namer h w f i).2.2.1 (i + 1)
      have hT1 : ∀ x, fieldAddr? f ≠ some x →
          heapSec (walkTopField namer h w f i).1 x = heapSec h x :=
        fun x hx => heapSec_of_get?_congr _ _ _ (hT1get x hx)
      have hR1 : ∀ x, x ∉ topAddrs rest →
          heapSec (walkFields namer (walkTopField namer h w f i).1
            (walkTopField namer h w f i).2.2.1 rest (i + 1)).1 x =
          heapSec (walkTopField namer h w f i).1 x :=
        fun x hx => heapSec_of_get?_congr _ _ _ (hR1get x hx)
      have hrest_sec : ∀ g ∈ rest, ∀ pt a, g.value = .indirect pt a →
          heapSec (walkTopField namer h w f i).1 a = heapSec h a := by
        intro g hg pt a hga
        refine hT1 a ?_
        intro hfx
        refine hpw'.2 a hfx a ?_ rfl
        rw [topAddrs_eq]
        refine List.mem_filterMap.mpr ⟨g, hg, ?_⟩
        rw [fieldAddr?, hga]
      refine ⟨?_, ?_, ?_, ?_, ?_⟩
      · refine .cons ?_ ?_
        · refine walkedField_final_congr h _ _ namer w.set w.sect f _ ?_ hwf1
          intro pt a hva
          refine hR1 a ?_
          intro hmem
          have hsome : fieldAddr? f = some a := by rw [fieldAddr?, hva]
          exact hpw'.2 a hsome a hmem rfl
        · rw [hsect1, hset1] at hfaR
          refine forall₂_imp_mem hfaR ?_
          intro g hg f' hrel
          exact walkedField_initial_congr h _ _ namer w.set w.sect g f'
            (hrest_sec g hg) hrel
      · intro k
        rw [husedR k, hused1 k, hsect1, hset1]
        constructor
        · rintro ((hk | ⟨hm1, g, hg, hgk⟩) | ⟨f', hf', hm', g, hg, hgk⟩)
          · exact Or.inl hk
          · exact Or.inr ⟨f, List.mem_cons_self _ _, hm1, g, hg, hgk⟩
          · refine Or.inr ⟨f', List.mem_cons_of_mem _ hf', hm', g, ?_, hgk⟩
            rwa [optFieldsOf_congr _ _ f' (hrest_sec f' hf')] at hg
        · rintro (hk | ⟨f', hf', hm', g, hg, hgk⟩)
          · exact Or.inl (Or.inl hk)
          · rcases List.mem_cons.mp hf' with rfl | hf'
            · exact Or.inl (Or.inr ⟨hm', g, hg, hgk⟩)
            · refine Or.inr ⟨f', hf', hm', g, ?_, hgk⟩
              rwa [optFieldsOf_congr _ _ f' (hrest_sec f' hf')]
      · rw [hsidxR, hsect1, hsidx1]
        cases hlm : lastMatchIdx w.sect rest with
        | some j =>
          have harith : i + 1 + j = i + (j + 1) := by omega
          simp [lastMatchIdx, hlm, harith]
        | none =>
          by_cases hm : sectionTagOf f = w.sect
          · simp [lastMatchIdx, hlm, hm]
          · simp [lastMatchIdx, hlm, hm]
      · rw [hsectR, hsect1]
      · rw [hsetR, hset1]

/-! ## From the copy and the walk to `Update`: success-path plumbing -/

theorem forall₂_get? {α β : Type} {R : α → β → Prop} :
    ∀ {l1 : List α} {l2 : List β}, List.Forall₂ R l1 l2 →
    ∀ {j : Nat} {a : α}, List.get? l1 j = some a →
    ∃ b, List.get? l2 j = some b ∧ R a b := by
  intro l1 l2 hfa
  induction hfa with
  | nil => intro j a ha; exact absurd ha (by simp)
  | cons hr _ ih =>
    intro j a ha
    cases j with
    | zero =>
      refine ⟨_, rfl, ?_⟩
      have h0 := Option.some.inj ha
      rw [← h0]
      exact hr
    | succ j => exact ih ha

theorem forall₂_exists_right {α β : Type} {R : α → β → Prop} :
    ∀ {l1 : List α} {l2 : List β}, List.Forall₂ R l1 l2 →
    ∀ a ∈ l1, ∃ b ∈ l2, R a b := by
  intro l1 l2 hfa
  induction hfa with
  | nil => intro a ha; exact absurd ha (by simp)
  | cons hr _ ih =>
    intro a ha
    rcases List.mem_cons.mp ha with ha | ha
    · exact ⟨_, List.mem_cons_self _ _, ha ▸ hr⟩
    · obtain ⟨b, hb, hbr⟩ := ih a ha
      exact ⟨b, List.mem_cons_of_mem _ hb, hbr⟩

theorem forall₂_trans {α β γ : Type} {R : α → β → Prop} {S : β → γ → Prop}
    {T : α → γ → Prop} (hT : ∀ a b c, R a b → S b c → T a c) :
    ∀ {l1 : List α} {l2 : List β} {l3 : List γ},
    List.Forall₂ R l1 l2 → List.Forall₂ S l2 l3 → List.Forall₂ T l1 l3 := by
  intro l1 l2 l3 h12
  induction h12 generalizing l3 with
  | nil => intro h23; cases h23; exact .nil
  | cons hr _ ih =>
    intro h23
    cases h23 with
    | cons hs hrest2 => exact .cons (hT _ _ _ hr hs) (ih hrest2)

theorem lastMatchIdx_congr (sect : String) :
    ∀ {fs fs' : List TopField},
    List.Forall₂ (fun f f' => sectionTagOf f' = sectionTagOf f) fs fs' →
    lastMatchIdx sect fs' = lastMatchIdx sect fs := by
  intro fs fs' hfa
  induction hfa with
  | nil => rfl
  | cons hr _ ih => simp only [lastMatchIdx, ih, hr]

theorem lastMatchIdx_get? (sect : String) :
    ∀ {fs : List TopField} {j : Nat}, lastMatchIdx sect fs = some j →
    ∃ f, List.get? fs j = some f ∧ sectionTagOf f = sect := by
  intro fs
  induction fs with
  | nil => intro j h; exact absurd h (by simp [lastMatchIdx])
  | cons f rest ih =>
    intro j h
    cases hlm : lastMatchIdx sect rest with
    | some j' =>
      simp only [lastMatchIdx, hlm] at h
      have hj : j' + 1 = j := Option.some.inj h
      obtain ⟨g, hg, hgt⟩ := ih hlm
      refine ⟨g, ?_, hgt⟩
      rw [← hj]
      exact hg
    | none =>
      by_cases hm : sectionTagOf f = sect
      · simp only [lastMatchIdx, hlm, if_pos hm] at h
        have hj : (0 : Nat) = j := Option.some.inj h
        refine ⟨f, ?_, hm⟩
        rw [← hj]
        rfl
      · simp only [lastMatchIdx, hlm, if_neg hm] at h
        exact absurd h (by simp)

theorem lookup_isSome_of_mem_keys {β : Type} (k : String) :
    ∀ {l : List (String × β)}, k ∈ l.map Prod.fst →
    (List.lookup k l).isSome = true := by
  intro l
  induction l with
  | nil => intro h; exact absurd h (by simp)
  | cons p rest ih =>
    intro h
    obtain ⟨k', v'⟩ := p
    cases hbeq : (k == k') with
    | true => simp [List.lookup, hbeq]
    | false =>
      have hne : ¬ k = k' := by simpa using hbeq
      have hmem : k ∈ rest.map Prod.fst := by
        rw [List.map_cons] at h
        rcases List.mem_cons.mp h with h1 | h1
        · exact absurd h1 hne
        · exact h1
      simpa [List.lookup, hbeq] using ih hmem

theorem mem_unusedKeys (w : ConfigWalker) (k : String) :
    k ∈ unusedKeys w ↔ k ∈ w.set.map Prod.fst ∧ ¬ k ∈ w.used := by
  unfold unusedKeys
  rw [List.mem_filter]
  simp

theorem copiedField_ext (h h1 : Heap) (ext : List Cell) (f f' : TopField)
    (hc : copiedField h h1 f f') : copiedField h (h1 ++ ext) f f' := by
  obtain ⟨h1f, h2f, h3f⟩ := hc
  refine ⟨h1f, h2f, ?_⟩
  cases hv : f.value with
  | direct s => cases hv' : f'.value <;> (rw [hv, hv'] at h3f; exact h3f)
  | plain g => cases hv' : f'.value <;> (rw [hv, hv'] at h3f; exact h3f)
  | indirect pt a =>
    cases hv' : f'.value with
    | direct s => rw [hv, hv'] at h3f; exact h3f
    | plain g => rw [hv, hv'] at h3f; exact h3f
    | indirect pt' a' =>
      rw [hv, hv'] at h3f
      obtain ⟨hpt, hlb, hub, hget⟩ := h3f
      have hub2 : a' < (h1 ++ ext).length := by
        rw [List.length_append]; omega
      have hget2 : List.get? (h1 ++ ext) a' = some (Cell.sec (heapSec h a)) := by
        rw [List.get?_append hub]; exact hget
      exact ⟨hpt, hlb, hub2, hget2⟩

theorem copiedField_tag (h h' : Heap) (f f' : TopField)
    (hc : copiedField h h' f f') : sectionTagOf f' = sectionTagOf f := by
  unfold sectionTagOf
  rw [hc.2.1]

theorem copiedField_optFields (h h' : Heap) (f f' : TopField)
    (hc : copiedField h h' f f') : optFieldsOf h' f' = optFieldsOf h f := by
  obtain ⟨h1f, h2f, h3f⟩ := hc
  unfold optFieldsOf
  cases hv : f.value with
  | direct s =>
    cases hv' : f'.value with
    | direct s' =>
      rw [hv, hv'] at h3f
      show s'.fields = s.fields
      rw [h3f]
    | indirect pt a => rw [hv, hv'] at h3f; exact h3f.elim
    | plain g => rw [hv, hv'] at h3f; exact h3f.elim
  | plain g =>
    cases hv' : f'.value with
    | direct s' => rw [hv, hv'] at h3f; exact h3f.elim
    | indirect pt a => rw [hv, hv'] at h3f; exact h3f.elim
    | plain g' => rfl
  | indirect pt a =>
    cases hv' : f'.value with
    | direct s' => rw [hv, hv'] at h3f; exact h3f.elim
    | plain g' => rw [hv, hv'] at h3f; exact h3f.elim
    | indirect pt' a' =>
      rw [hv, hv'] at h3f
      show (heapSec h' a').fields = (heapSec h a).fields
      have hsec : heapSec h' a' = heapSec h a := by
        show (match List.get? h' a' with
          | some (.sec s) => s
          | _ => default) = heapSec h a
        rw [h3f.2.2.2]
      rw [hsec]

theorem heapTop_set_eq (h : Heap) (a : Nat) (c : ConfigStruct) (ha : a < h.length) :
    heapTop (heapSet h a (Cell.top c)) a = c := by
  unfold heapTop heapSet
  rw [List.get?_set_eq_of_lt _ ha]

theorem deepCopy_fst (h : Heap) (root : Nat) :
    (deepCopy h root).1 = (copyTopFields h (heapTop h root).fields).1 ++
      [Cell.top { heapTop h root with
        fields := (copyTopFields h (heapTop h root).fields).2 }] := rfl

theorem deepCopy_snd (h : Heap) (root : Nat) :
    (deepCopy h root).2 = (copyTopFields h (heapTop h root).fields).1.length := rfl

/-- The walk `Update` runs on the clone: `reflectwalk.Walk` applied to
the copied top-level fields with a fresh walker. -/
def updWalk (h : Heap) (root : Nat) (namer : FieldNameFunc) (sect nm : String)
    (set : List (String × GoValue)) : Heap × List TopField × ConfigWalker × WalkStatus :=
  walkFields namer (deepCopy h root).1 (newWalker sect nm set)
    (copyTopFields h (heapTop h root).fields).2 0

/-- The heap after the walk writes the updated top struct back to the
clone's cell. -/
def updFinalHeap (h : Heap) (root : Nat) (namer : FieldNameFunc) (sect nm : String)
    (set : List (String × GoValue)) : Heap :=
  heapSet (updWalk h root namer sect nm set).1 (deepCopy h root).2
    (Cell.top { heapTop h root with fields := (updWalk h root namer sect nm set).2.1 })

theorem reflectwalkWalk_eq (h : Heap) (root : Nat) (namer : FieldNameFunc)
    (sect nm : String) (set : List (String × GoValue)) :
    reflectwalkWalk namer (deepCopy h root).1 (deepCopy h root).2
      (newWalker sect nm set) =
    (updFinalHeap h root namer sect nm set,
     (updWalk h root namer sect nm set).2.2.1,
     (updWalk h root namer sect nm set).2.2.2) := by
  simp only [reflectwalkWalk, updFinalHeap, updWalk, deepCopy_top]

/-- What `Update` returning a value says of the matched top-level
field `f` of the original: a direct aggregate is returned updated per
`secUpdated`; an indirection is returned as a pointer to a fresh cell
(at or above the original frontier) whose pointee is the updated
aggregate; an unhandled (plain) field is returned as it was. -/
def updReturned (h : Heap) (root : Nat) (namer : FieldNameFunc) (sect nm : String)
    (set : List (String × GoValue)) (v : IfaceValue) (f : TopField) : Prop :=
  match f.value with
  | .direct s => ∃ s', v = .structVal s' ∧ secUpdated namer set s s'
  | .indirect pt a => ∃ a', v = .ptrVal pt a' ∧ h.length ≤ a' ∧
      secUpdated namer set (heapSec h a)
        (heapSec (Update h root namer sect nm set).2 a')
  | .plain g => v = .plainVal g

/-- One top-level field of the walked clone, relative to its original:
names and tags are kept, and a field carrying the target tag has its
(possibly pointed-to, freshly cloned) aggregate updated per
`secUpdated`. -/
def updWalkedTop (h : Heap) (root : Nat) (namer : FieldNameFunc) (sect nm : String)
    (set : List (String × GoValue)) (f f' : TopField) : Prop :=
  f'.fname = f.fname ∧ f'.tags = f.tags ∧
  (sectionTagOf f = sect →
    match f.value, f'.value with
    | .direct s, .direct s' => secUpdated namer set s s'
    | .indirect pt a, .indirect pt' a' =>
        pt' = pt ∧ h.length ≤ a' ∧
        secUpdated namer set (heapSec h a)
          (heapSec (Update h root namer sect nm set).2 a')
    | .plain g, .plain g' => g' = g
    | _, _ => False)

theorem update_ok_inversion (h : Heap) (root : Nat) (namer : FieldNameFunc)
    (sect nm : String) (set : List (String × GoValue)) (v : IfaceValue)
    (hok : (Update h root namer sect nm set).1 = .ok v) :
    sect ≠ "" ∧
    (updWalk h root namer sect nm set).2.2.2 = .ok ∧
    unusedKeys (updWalk h root namer sect nm set).2.2.1 = [] ∧
    sectionObject (updFinalHeap h root namer sect nm set) (deepCopy h root).2
      (updWalk h root namer sect nm set).2.2.1 = some v ∧
    (Update h root namer sect nm set).2 = updFinalHeap h root namer sect nm set := by
  by_cases hs : sect = ""
  · exfalso
    simp only [Update, if_pos hs] at hok
    exact absurd hok (by simp)
  · have hrw := reflectwalkWalk_eq h root namer sect nm set
    simp only [Update, if_neg hs, hrw] at hok
    cases hst : (updWalk h root namer sect nm set).2.2.2 with
    | panicked =>
      simp only [hst] at hok
      exact absurd hok (by simp)
    | errAt n out =>
      simp only [hst] at hok
      exact absurd hok (by simp)
    | ok =>
      simp only [hst] at hok
      by_cases hu : (unusedKeys (updWalk h root namer sect nm set).2.2.1).length > 0
      · rw [if_pos hu] at hok
        exact absurd hok (by simp)
      · rw [if_neg hu] at hok
        have hunil : unusedKeys (updWalk h root namer sect nm set).2.2.1 = [] :=
          List.eq_nil_of_length_eq_zero (by omega)
        cases hso : sectionObject (updFinalHeap h root namer sect nm set)
            (deepCopy h root).2 (updWalk h root namer sect nm set).2.2.1 with
        | none =>
          simp only [hso] at hok
          exact absurd hok (by simp)
        | some v' =>
          simp only [hso] at hok
          have hv : v' = v := by simpa using hok
          refine ⟨hs, rfl, hunil, by rw [hv], ?_⟩
          simp only [Update, if_neg hs, hrw, hst, if_neg hu, hso]

theorem update_err_unused_inversion (h : Heap) (root : Nat) (namer : FieldNameFunc)
    (sect nm : String) (set : List (String × GoValue))
    (hs : sect ≠ "")
    (hwok : (updWalk h root namer sect nm set).2.2.2 = .ok)
    (hne : unusedKeys (updWalk h root namer sect nm set).2.2.1 ≠ []) :
    (Update h root namer sect nm set).1 =
      .err (.unknownOptions (unusedKeys (updWalk h root namer sect nm set).2.2.1) sect) := by
  have hrw := reflectwalkWalk_eq h root namer sect nm set
  simp only [Update, if_neg hs, hrw, hwok]
  rw [if_pos (List.length_pos.mpr hne)]

theorem update_copied_package (h : Heap) (root : Nat) (hwf : rootWF h root = true) :
    List.Forall₂ (copiedField h (copyTopFields h (heapTop h root).fields).1)
      (heapTop h root).fields (copyTopFields h (heapTop h root).fields).2 ∧
    List.Pairwise (· ≠ ·) (topAddrs (copyTopFields h (heapTop h root).fields).2) := by
  obtain ⟨cfg, hr, hflds⟩ := rootWF_elim h root hwf
  have hcfg : heapTop h root = cfg := by unfold heapTop; rw [hr]
  have hub : ∀ f ∈ (heapTop h root).fields, ∀ pt a, f.value = .indirect pt a →
      a < h.length := by
    rw [hcfg]
    exact fun f hf pt a hv => (hflds f hf pt a hv).1
  obtain ⟨_, hfa, hpw, _⟩ := copyTopFields_spec (heapTop h root).fields h hub
  exact ⟨hfa, hpw.imp (fun hab => Nat.ne_of_lt hab)⟩

theorem copiedField_optFields_deep (h : Heap) (root : Nat) (f f' : TopField)
    (hc : copiedField h (copyTopFields h (heapTop h root).fields).1 f f') :
    optFieldsOf (deepCopy h root).1 f' = optFieldsOf h f := by
  have hc' : copiedField h (deepCopy h root).1 f f' := by
    rw [deepCopy_fst]
    exact copiedField_ext _ _ _ _ _ hc
  exact copiedField_optFields _ _ _ _ hc'

theorem copied_walked_compose (h : Heap) (root : Nat) (namer : FieldNameFunc)
    (sect nm : String) (set : List (String × GoValue)) (f f2 f3 : TopField)
    (hupd2 : (Update h root namer sect nm set).2 = updFinalHeap h root namer sect nm set)
    (hcf : copiedField h (copyTopFields h (heapTop h root).fields).1 f f2)
    (hwk : walkedField (deepCopy h root).1 (updWalk h root namer sect nm set).1
      namer set sect f2 f3) :
    updWalkedTop h root namer sect nm set f f3 := by
  have htag : sectionTagOf f2 = sectionTagOf f := copiedField_tag _ _ _ _ hcf
  obtain ⟨hn2, ht2, hv2⟩ := hcf
  obtain ⟨hn3, ht3, hv3⟩ := hwk
  refine ⟨by rw [hn3, hn2], by rw [ht3, ht2], ?_⟩
  intro hm
  rw [if_pos (htag.trans hm : sectionTagOf f2 = sect)] at hv3
  cases hv : f.value with
  | direct s =>
    cases hvb : f2.value with
    | direct s2 =>
      rw [hv, hvb] at hv2
      cases hvc : f3.value with
      | direct s3 =>
        rw [hvb, hvc] at hv3
        exact hv2 ▸ hv3
      | indirect pt3 a3 => rw [hvb, hvc] at hv3; exact hv3.elim
      | plain g3 => rw [hvb, hvc] at hv3; exact hv3.elim
    | indirect pt2 a2 => rw [hv, hvb] at hv2; exact hv2.elim
    | plain g2 => rw [hv, hvb] at hv2; exact hv2.elim
  | indirect pt a =>
    cases hvb : f2.value with
    | indirect pt2 a2 =>
      rw [hv, hvb] at hv2
      obtain ⟨hpt2, hlb2, hub2, hget2⟩ := hv2
      cases hvc : f3.value with
      | indirect pt3 a3 =>
        rw [hvb, hvc] at hv3
        obtain ⟨hpt3, ha3, hsu⟩ := hv3
        subst ha3
        have h1 : heapSec (deepCopy h root).1 a3 = heapSec h a := by
          rw [deepCopy_fst, heapSec_append _ _ _ hub2]
          show (match List.get? (copyTopFields h (heapTop h root).fields).1 a3 with
            | some (.sec s) => s
            | _ => default) = heapSec h a
          rw [hget2]
        have h2 : heapSec (Update h root namer sect nm set).2 a3 =
            heapSec (updWalk h root namer sect nm set).1 a3 := by
          rw [hupd2]
          unfold updFinalHeap
          refine heapSec_set_ne _ _ _ _ ?_
          rw [deepCopy_snd]
          omega
        refine ⟨hpt3.trans hpt2, hlb2, ?_⟩
        rw [h2, ← h1]
        exact hsu
      | direct s3 => rw [hvb, hvc] at hv3; exact hv3.elim
      | plain g3 => rw [hvb, hvc] at hv3; exact hv3.elim
    | direct s2 => rw [hv, hvb] at hv2; exact hv2.elim
    | plain g2 => rw [hv, hvb] at hv2; exact hv2.elim
  | plain g =>
    cases hvb : f2.value with
    | plain g2 =>
      rw [hv, hvb] at hv2
      cases hvc : f3.value with
      | plain g3 =>
        rw [hvb, hvc] at hv3
        exact hv3.trans hv2
      | direct s3 => rw [hvb, hvc] at hv3; exact hv3.elim
      | indirect pt3 a3 => rw [hvb, hvc] at hv3; exact hv3.elim
    | direct s2 => rw [hv, hvb] at hv2; exact hv2.elim
    | indirect pt2 a2 => rw [hv, hvb] at hv2; exact hv2.elim

theorem update_ok_master (h : Heap) (root : Nat) (namer : FieldNameFunc)
    (sect nm : String) (set : List (String × GoValue)) (v : IfaceValue)
    (hwf : rootWF h root = true)
    (hok : (Update h root namer sect nm set).1 = .ok v) :
    (∃ j f, lastMatchIdx sect (heapTop h root).fields = some j ∧
      List.get? (heapTop h root).fields j = some f ∧ sectionTagOf f = sect ∧
      updReturned h root namer sect nm set v f) ∧
    (∀ kv ∈ set, ∃ f ∈ (heapTop h root).fields, sectionTagOf f = sect ∧
      ∃ g ∈ optFieldsOf h f, namer g.desc = kv.1) ∧
    List.Forall₂ (updWalkedTop h root namer sect nm set) (heapTop h root).fields
      (heapTop (Update h root namer sect nm set).2 (deepCopy h root).2).fields := by
  obtain ⟨hs, hwok, hunil, hso, hupd2⟩ :=
    update_ok_inversion h root namer sect nm set v hok
  obtain ⟨hfaC, hpw⟩ := update_copied_package h root hwf
  have hwok' : (walkFields namer (deepCopy h root).1 (newWalker sect nm set)
      (copyTopFields h (heapTop h root).fields).2 0).2.2.2 = .ok := hwok
  obtain ⟨hFa, hused, hsidx, hsect, hset⟩ := walkFields_ok_spec namer
    (copyTopFields h (heapTop h root).fields).2 (deepCopy h root).1
    (newWalker sect nm set) 0 hpw hwok'
  have hFa' : List.Forall₂ (walkedField (deepCopy h root).1
      (updWalk h root namer sect nm set).1 namer set sect)
      (copyTopFields h (heapTop h root).fields).2
      (updWalk h root namer sect nm set).2.1 := hFa
  have hused' : ∀ k, k ∈ ((updWalk h root namer sect nm set).2.2.1).used ↔
      k ∈ ([] : List String) ∨
      ∃ f ∈ (copyTopFields h (heapTop h root).fields).2, sectionTagOf f = sect ∧
        ∃ g ∈ optFieldsOf (deepCopy h root).1 f,
          namer g.desc = k ∧ (List.lookup k set).isSome := hused
  have hsidx' : ((updWalk h root namer sect nm set).2.2.1).sectionIdx =
      match lastMatchIdx sect (copyTopFields h (heapTop h root).fields).2 with
      | some j => some (0 + j)
      | none => none := hsidx
  have hset' : ((updWalk h root namer sect nm set).2.2.1).set = set := hset
  have htagsFa : List.Forall₂ (fun f f' => sectionTagOf f' = sectionTagOf f)
      (heapTop h root).fields (copyTopFields h (heapTop h root).fields).2 :=
    List.Forall₂.imp (fun a b hc => copiedField_tag _ _ _ _ hc) hfaC
  have hlmi : lastMatchIdx sect (copyTopFields h (heapTop h root).fields).2 =
      lastMatchIdx sect (heapTop h root).fields := lastMatchIdx_congr sect htagsFa
  rw [hlmi] at hsidx'
  have hc2lt : (deepCopy h root).2 < (updWalk h root namer sect nm set).1.length := by
    obtain ⟨hlen, _⟩ := walkFields_heap namer
      (copyTopFields h (heapTop h root).fields).2 (deepCopy h root).1
      (newWalker sect nm set) 0
    have hlen' : (updWalk h root namer sect nm set).1.length =
        (deepCopy h root).1.length := hlen
    rw [hlen', deepCopy_fst, deepCopy_snd, List.length_append]
    simp
  have htopF : heapTop (updFinalHeap h root namer sect nm set) (deepCopy h root).2 =
      { heapTop h root with fields := (updWalk h root namer sect nm set).2.1 } := by
    unfold updFinalHeap
    exact heapTop_set_eq _ _ _ hc2lt
  refine ⟨?_, ?_, ?_⟩
  · unfold sectionObject at hso
    cases hlm : lastMatchIdx sect (heapTop h root).fields with
    | none =>
      exfalso
      simp only [hlm] at hsidx'
      simp only [hsidx'] at hso
      exact absurd hso (by simp)
    | some j =>
      simp only [hlm, Nat.zero_add] at hsidx'
      obtain ⟨f, hfget, hftag⟩ := lastMatchIdx_get? sect hlm
      obtain ⟨f2, hf2get, hcf⟩ := forall₂_get? hfaC hfget
      obtain ⟨f3, hf3get, hwkrel⟩ := forall₂_get? hFa' hf2get
      have hcomp := copied_walked_compose h root namer sect nm set f f2 f3
        hupd2 hcf hwkrel
      refine ⟨j, f, rfl, hfget, hftag, ?_⟩
      obtain ⟨_, _, hcval⟩ := hcomp
      have hcm := hcval hftag
      cases hv : f.value with
      | direct s =>
        rw [hv] at hcm
        cases hv3 : f3.value with
        | direct s3 =>
          rw [hv3] at hcm
          simp only [hsidx', htopF, hf3get, Option.map_some', hv3] at hso
          have hvv : IfaceValue.structVal s3 = v := by simpa using hso
          simp only [updReturned, hv]
          exact ⟨s3, hvv.symm, hcm⟩
        | indirect pt3 a3 => rw [hv3] at hcm; exact hcm.elim
        | plain g3 => rw [hv3] at hcm; exact hcm.elim
      | indirect pt a =>
        rw [hv] at hcm
        cases hv3 : f3.value with
        | indirect pt3 a3 =>
          rw [hv3] at hcm
          obtain ⟨hpt3, hlb3, hsu3⟩ := hcm
          simp only [hsidx', htopF, hf3get, Option.map_some', hv3] at hso
          have hvv : IfaceValue.ptrVal pt3 a3 = v := by simpa using hso
          simp only [updReturned, hv]
          refine ⟨a3, ?_, hlb3, hsu3⟩
          rw [← hvv, hpt3]
        | direct s3 => rw [hv3] at hcm; exact hcm.elim
        | plain g3 => rw [hv3] at hcm; exact hcm.elim
      | plain g =>
        rw [hv] at hcm
        cases hv3 : f3.value with
        | plain g3 =>
          rw [hv3] at hcm
          simp only [hsidx', htopF, hf3get, Option.map_some', hv3] at hso
          have hvv : IfaceValue.plainVal g3 = v := by simpa using hso
          simp only [updReturned, hv]
          rw [← hvv, hcm]
        | direct s3 => rw [hv3] at hcm; exact hcm.elim
        | indirect pt3 a3 => rw [hv3] at hcm; exact hcm.elim
  · intro kv hkv
    have hkmem : kv.1 ∈ set.map Prod.fst := List.mem_map_of_mem _ hkv
    have hkused : kv.1 ∈ ((updWalk h root namer sect nm set).2.2.1).used := by
      by_contra hnu
      have hmem : kv.1 ∈ unusedKeys (updWalk h root namer sect nm set).2.2.1 :=
        (mem_unusedKeys _ _).mpr ⟨by rw [hset']; exact hkmem, hnu⟩
      rw [hunil] at hmem
      exact absurd hmem (by simp)
    rcases (hused' kv.1).mp hkused with hx | ⟨f2, hf2, htag2, g, hg, hgk, _⟩
    · exact absurd hx (by simp)
    · obtain ⟨f, hf, hcf⟩ := forall₂_exists_left hfaC f2 hf2
      refine ⟨f, hf, ?_, g, ?_, hgk⟩
      · rw [← copiedField_tag h _ f f2 hcf]
        exact htag2
      · rw [← copiedField_optFields_deep h root f f2 hcf]
        exact hg
  · rw [hupd2, htopF]
    exact forall₂_trans (fun f f2 f3 hcf hwk =>
      copied_walked_compose h root namer sect nm set f f2 f3 hupd2 hcf hwk) hfaC hFa'

/-- After an error-free walk, a key is marked used iff it resolves,
under the namer, to an option field of some top-level field of the
ORIGINAL configuration carrying the target tag. -/
theorem update_walkok_used_orig (h : Heap) (root : Nat) (namer : FieldNameFunc)
    (sect nm : String) (set : List (String × GoValue))
    (hwf : rootWF h root = true)
    (hwok : (updWalk h root namer sect nm set).2.2.2 = .ok) :
    (∀ x, x ∈ ((updWalk h root namer sect nm set).2.2.1).used ↔
      ∃ f ∈ (heapTop h root).fields, sectionTagOf f = sect ∧
        ∃ g ∈ optFieldsOf h f, namer g.desc = x ∧ (List.lookup x set).isSome) ∧
    ((updWalk h root namer sect nm set).2.2.1).set = set := by
  obtain ⟨hfaC, hpw⟩ := update_copied_package h root hwf
  have hwok' : (walkFields namer (deepCopy h root).1 (newWalker sect nm set)
      (copyTopFields h (heapTop h root).fields).2 0).2.2.2 = .ok := hwok
  obtain ⟨_, hused, _, _, hset⟩ := walkFields_ok_spec namer
    (copyTopFields h (heapTop h root).fields).2 (deepCopy h root).1
    (newWalker sect nm set) 0 hpw hwok'
  have hused' : ∀ k, k ∈ ((updWalk h root namer sect nm set).2.2.1).used ↔
      k ∈ ([] : List String) ∨
      ∃ f ∈ (copyTopFields h (heapTop h root).fields).2, sectionTagOf f = sect ∧
        ∃ g ∈ optFieldsOf (deepCopy h root).1 f,
          namer g.desc = k ∧ (List.lookup k set).isSome := hused
  have hset' : ((updWalk h root namer sect nm set).2.2.1).set = set := hset
  refine ⟨?_, hset'⟩
  intro x
  rw [hused' x]
  constructor
  · rintro (hx | ⟨f2, hf2, htag2, g, hg, hgk⟩)
    · exact absurd hx (by simp)
    · obtain ⟨f, hf, hcf⟩ := forall₂_exists_left hfaC f2 hf2
      refine ⟨f, hf, ?_, g, ?_, hgk⟩
      · rw [← copiedField_tag h _ f f2 hcf]
        exact htag2
      · rw [← copiedField_optFields_deep h root f f2 hcf]
        exact hg
  · rintro ⟨f, hf, htag, g, hg, hgk⟩
    obtain ⟨f2, hf2, hcf⟩ := forall₂_exists_right hfaC f hf
    refine Or.inr ⟨f2, hf2, ?_, g, ?_, hgk⟩
    · rw [copiedField_tag h _ f f2 hcf]
      exact htag
    · rw [copiedField_optFields_deep h root f f2 hcf]
      exact hg

/-- Counterexample to C4 as stated: the target section `section-a`
exists and the key `typo` resolves to no field of it under the active
namer, yet the call fails with the walk (coercion) error for
`Option1`, not with the unknown-options error — the walk aborts at the
first coercion failure before the unused-keys check can run. -/
theorem update_unknown_options_preempted_cex :
    (∃ f ∈ (heapTop testHeap 0).fields, sectionTagOf f = "section-a") ∧
    ("typo" ∈ ([("Option1", GoValue.vInt intTy 123),
        ("typo", GoValue.vString stringTy "x")].map Prod.fst)) ∧
    (∀ f ∈ (heapTop testHeap 0).fields, sectionTagOf f = "section-a" →
      ∀ g ∈ optFieldsOf testHeap f, RawFieldName g.desc ≠ "typo") ∧
    (Update testHeap 0 RawFieldName "section-a" ""
        [("Option1", .vInt intTy 123), ("typo", .vString stringTy "x")]).1 =
      .err (.walkErr "section-a" "Option1" (.errWrongType .Int .String)) := by
  refine ⟨by decide, by decide, by decide, by decide⟩

/-- C4 (amended): when the walk over the clone completes without a
coercion error and some key of the non-empty override set resolves,
under the active namer, to no option field of any top-level field
carrying the target tag, `Update` returns no value and fails with the
unknown-options error, whose key list names exactly the keys of the
set that resolve to no field of the section. -/
theorem update_unused_keys_fatal (h : Heap) (root : Nat) (namer : FieldNameFunc)
    (sect nm k : String) (set : List (String × GoValue))
    (hwf : rootWF h root = true) (hs : sect ≠ "")
    (hwalkok : (reflectwalkWalk namer (deepCopy h root).1 (deepCopy h root).2
      (newWalker sect nm set)).2.2 = .ok)
    (hk : k ∈ set.map Prod.fst)
    (hunres : ∀ f ∈ (heapTop h root).fields, sectionTagOf f = sect →
      ∀ g ∈ optFieldsOf h f, namer g.desc ≠ k) :
    ∃ L, (Update h root namer sect nm set).1 = .err (.unknownOptions L sect) ∧
      k ∈ L ∧
      (∀ x, x ∈ L ↔ x ∈ set.map Prod.fst ∧
        ∀ f ∈ (heapTop h root).fields, sectionTagOf f = sect →
          ∀ g ∈ optFieldsOf h f, namer g.desc ≠ x) := by
  rw [reflectwalkWalk_eq h root namer sect nm set] at hwalkok
  have hwok : (updWalk h root namer sect nm set).2.2.2 = .ok := hwalkok
  obtain ⟨husedO, hsetO⟩ := update_walkok_used_orig h root namer sect nm set hwf hwok
  have hmemU : ∀ x, x ∈ unusedKeys ((updWalk h root namer sect nm set).2.2.1) ↔
      (x ∈ set.map Prod.fst ∧
        ∀ f ∈ (heapTop h root).fields, sectionTagOf f = sect →
          ∀ g ∈ optFieldsOf h f, namer g.desc ≠ x) := by
    intro x
    rw [mem_unusedKeys, hsetO]
    constructor
    · rintro ⟨hx1, hx2⟩
      refine ⟨hx1, ?_⟩
      intro f hf htag g hg hgname
      exact hx2 ((husedO x).mpr
        ⟨f, hf, htag, g, hg, hgname, lookup_isSome_of_mem_keys x hx1⟩)
    · rintro ⟨hx1, hx2⟩
      refine ⟨hx1, ?_⟩
      intro hxu
      obtain ⟨f, hf, htag, g, hg, hgname, _⟩ := (husedO x).mp hxu
      exact hx2 f hf htag g hg hgname
  have hkU : k ∈ unusedKeys ((updWalk h root namer sect nm set).2.2.1) :=
    (hmemU k).mpr ⟨hk, hunres⟩
  have hne : unusedKeys ((updWalk h root namer sect nm set).2.2.1) ≠ [] := by
    intro hnil
    rw [hnil] at hkU
    exact absurd hkU (by simp)
  exact ⟨unusedKeys ((updWalk h root namer sect nm set).2.2.1),
    update_err_unused_inversion h root namer sect nm set hs hwok hne, hkU, hmemU⟩

/-- Witness for `update_unused_keys_fatal`: on the test configuration,
a set whose only key `typo` matches nothing makes the call fail with
the unknown-options error naming exactly `typo`. -/
theorem update_unused_keys_fatal_witness :
    ∃ L, (Update testHeap 0 RawFieldName "section-a" ""
        [("typo", .vString stringTy "x")]).1 =
      .err (.unknownOptions L "section-a") ∧
      "typo" ∈ L ∧
      (∀ x, x ∈ L ↔ x ∈ ([("typo", GoValue.vString stringTy "x")].map Prod.fst) ∧
        ∀ f ∈ (heapTop testHeap 0).fields, sectionTagOf f = "section-a" →
          ∀ g ∈ optFieldsOf testHeap f, RawFieldName g.desc ≠ x) :=
  update_unused_keys_fatal testHeap 0 RawFieldName "section-a" "" "typo"
    [("typo", .vString stringTy "x")]
    (by decide) (by decide) (by decide) (by decide) (by decide)

/-- C5 (amended): on a successful call whose target tag is carried by
at most one top-level field, the returned section value has, for each
key of the set, the coerced supplied value assigned to the field whose
external name equals that key, and no other option field differs from
the engine's original (`updReturned`, built on `secUpdated`); moreover
every key of the set resolves to an option field of that section. -/
theorem update_success_containment (h : Heap) (root : Nat) (namer : FieldNameFunc)
    (sect nm : String) (set : List (String × GoValue)) (v : IfaceValue)
    (hwf : rootWF h root = true)
    (huniq : ∀ f1 ∈ (heapTop h root).fields, ∀ f2 ∈ (heapTop h root).fields,
      sectionTagOf f1 = sect → sectionTagOf f2 = sect → f1 = f2)
    (hok : (Update h root namer sect nm set).1 = .ok v) :
    ∃ f ∈ (heapTop h root).fields, sectionTagOf f = sect ∧
      updReturned h root namer sect nm set v f ∧
      ∀ kv ∈ set, ∃ g ∈ optFieldsOf h f, namer g.desc = kv.1 := by
  obtain ⟨⟨j, f, hlm, hget, htag, hret⟩, hkeys, _⟩ :=
    update_ok_master h root namer sect nm set v hwf hok
  have hfmem : f ∈ (heapTop h root).fields := List.get?_mem hget
  refine ⟨f, hfmem, htag, hret, ?_⟩
  intro kv hkv
  obtain ⟨f', hf', htag', g, hg, hgk⟩ := hkeys kv hkv
  have hff : f' = f := huniq f' hf' f hfmem htag' htag
  rw [← hff]
  exact ⟨g, hg, hgk⟩

/-- Witness for `update_success_containment`: overriding `Option1` of
the uniquely-tagged `section-a` returns `SectionA` with `Option1`
replaced and `Option2` untouched. -/
theorem update_success_containment_witness :
    ∃ f ∈ (heapTop testHeap 0).fields, sectionTagOf f = "section-a" ∧
      updReturned testHeap 0 RawFieldName "section-a" ""
        [("Option1", .vString stringTy "new")]
        (.structVal ⟨"SectionA",
          [⟨"Option1", [("toml", "toml-option1")], true, .vString stringTy "new"⟩,
           ⟨"Option2", [("toml", "toml-option2")], true, .vString stringTy ""⟩]⟩) f ∧
      ∀ kv ∈ [("Option1", GoValue.vString stringTy "new")],
        ∃ g ∈ optFieldsOf testHeap f, RawFieldName g.desc = kv.1 :=
  update_success_containment testHeap 0 RawFieldName "section-a" ""
    [("Option1", .vString stringTy "new")]
    (.structVal ⟨"SectionA",
      [⟨"Option1", [("toml", "toml-option1")], true, .vString stringTy "new"⟩,
       ⟨"Option2", [("toml", "toml-option2")], true, .vString stringTy ""⟩]⟩)
    (by decide) (by decide) (by decide)

/-- C8 (amended): when the last top-level field carrying the target
tag is a single-level indirection, the value a successful call
returns is the indirection itself — a pointer to a fresh clone cell
at or above the original frontier — not the aggregate dereferenced
once; the updated aggregate is only reached through that pointer in
the post-call heap. -/
theorem update_indirect_returns_pointer (h : Heap) (root : Nat) (namer : FieldNameFunc)
    (sect nm : String) (set : List (String × GoValue)) (v : IfaceValue)
    (j : Nat) (f : TopField) (pt : String) (a : Nat)
    (hwf : rootWF h root = true)
    (hlm : lastMatchIdx sect (heapTop h root).fields = some j)
    (hget : List.get? (heapTop h root).fields j = some f)
    (hval : f.value = .indirect pt a)
    (hok : (Update h root namer sect nm set).1 = .ok v) :
    ∃ a', v = .ptrVal pt a' ∧ h.length ≤ a' ∧
      secUpdated namer set (heapSec h a)
        (heapSec (Update h root namer sect nm set).2 a') := by
  obtain ⟨⟨j0, f0, hlm0, hget0, _, hret⟩, _, _⟩ :=
    update_ok_master h root namer sect nm set v hwf hok
  have hj : j0 = j := Option.some.inj (hlm0.symm.trans hlm)
  subst hj
  have hf : f0 = f := Option.some.inj (hget0.symm.trans hget)
  subst hf
  simp only [updReturned, hval] at hret
  exact hret

/-- Witness for `update_indirect_returns_pointer`: the pointer-held
`section-c` is returned as the pointer to the fresh cell 2, whose
pointee is the updated aggregate. -/
theorem update_indirect_returns_pointer_witness :
    ∃ a', IfaceValue.ptrVal "*SectionC" 2 = .ptrVal "*SectionC" a' ∧
      ptrHeap.length ≤ a' ∧
      secUpdated RawFieldName [("Option4", GoValue.vInt int64Ty 42)]
        (heapSec ptrHeap 1)
        (heapSec (Update ptrHeap 0 RawFieldName "section-c" ""
          [("Option4", .vInt int64Ty 42)]).2 a') :=
  update_indirect_returns_pointer ptrHeap 0 RawFieldName "section-c" ""
    [("Option4", .vInt int64Ty 42)] (.ptrVal "*SectionC" 2) 0
    ⟨"SectionC", [(structTagKey, "section-c")], .indirect "*SectionC" 1⟩
    "*SectionC" 1 (by decide) (by decide) (by decide) (by decide) (by decide)

/-- C10: when several top-level fields carry the same target tag, a
successful call returns the LAST matching field in declaration order,
updated per its own options (`updReturned`); every key of the set
resolves to an option field of SOME matching top-level field — a key
is consumed when it matches in any of them; and in the walked clone
every matching field was updated per its own options
(`updWalkedTop`). -/
theorem update_duplicate_sections (h : Heap) (root : Nat) (namer : FieldNameFunc)
    (sect nm : String) (set : List (String × GoValue)) (v : IfaceValue)
    (hwf : rootWF h root = true)
    (hok : (Update h root namer sect nm set).1 = .ok v) :
    (∃ j f, lastMatchIdx sect (heapTop h root).fields = some j ∧
      List.get? (heapTop h root).fields j = some f ∧ sectionTagOf f = sect ∧
      updReturned h root namer sect nm set v f) ∧
    (∀ kv ∈ set, ∃ f ∈ (heapTop h root).fields, sectionTagOf f = sect ∧
      ∃ g ∈ optFieldsOf h f, namer g.desc = kv.1) ∧
    List.Forall₂ (updWalkedTop h root namer sect nm set) (heapTop h root).fields
      (heapTop (Update h root namer sect nm set).2 (deepCopy h root).2).fields :=
  update_ok_master h root namer sect nm set v hwf hok

/-- Witness for `update_duplicate_sections`: with two fields tagged
`s`, key `A` resolves in the first, key `B` in the second, the call
succeeds, and the returned value is the second (`SectionY`) with its
own option `B` updated. -/
theorem update_duplicate_sections_witness :
    (∃ j f, lastMatchIdx "s" (heapTop dupHeap 0).fields = some j ∧
      List.get? (heapTop dupHeap 0).fields j = some f ∧ sectionTagOf f = "s" ∧
      updReturned dupHeap 0 RawFieldName "s" ""
        [("A", .vString stringTy "na"), ("B", .vString stringTy "nb")]
        (.structVal ⟨"SectionY", [⟨"B", [], true, .vString stringTy "nb"⟩]⟩) f) ∧
    (∀ kv ∈ [("A", GoValue.vString stringTy "na"), ("B", GoValue.vString stringTy "nb")],
      ∃ f ∈ (heapTop dupHeap 0).fields, sectionTagOf f = "s" ∧
        ∃ g ∈ optFieldsOf dupHeap f, RawFieldName g.desc = kv.1) ∧
    List.Forall₂ (updWalkedTop dupHeap 0 RawFieldName "s" ""
        [("A", .vString stringTy "na"), ("B", .vString stringTy "nb")])
      (heapTop dupHeap 0).fields
      (heapTop (Update dupHeap 0 RawFieldName "s" ""
          [("A", .vString stringTy "na"), ("B", .vString stringTy "nb")]).2
        (deepCopy dupHeap 0).2).fields :=
  update_duplicate_sections dupHeap 0 RawFieldName "s" ""
    [("A", .vString stringTy "na"), ("B", .vString stringTy "nb")]
    (.structVal ⟨"SectionY", [⟨"B", [], true, .vString stringTy "nb"⟩]⟩)
    (by decide) (by decide)

end Configupdate
